import Mathlib

/-!
Verification development for the tianshou repository.

Part 1 models the generic record container `Batch`
(src/tianshou/data/batch.py): a mapping from string keys to values,
where a value is a numpy array (1-D or 2-D, modelled over `Int`),
a Python number, a Python list of numbers, `None`, or a nested `Batch`.

Part 2 models the synchronous `Collector.collect` loop
(src/tianshou/data/collector.py) over an abstract deterministic
environment/policy model.
-/

set_option maxHeartbeats 1600000

/-- Values stored in a `Batch`.  `arr` models a 1-D `np.ndarray` of
numbers, `arr2` a 2-D one, `scalar` a Python number, `lst` a Python
list of numbers, `none` Python `None`, and `sub` a nested `Batch`
(the field list, in insertion order). -/
inductive BVal : Type where
  | arr (xs : List Int)
  | arr2 (xss : List (List Int))
  | scalar (x : Int)
  | lst (xs : List Int)
  | none
  | sub (fields : List (String × BVal))

/-- A `Batch` is its `_data` dict: keys with values, in insertion order. -/
abbrev Batch := List (String × BVal)

/-- Minimum of a list of naturals, `Option.none` when empty
(Python `min(r) if len(r) > 0 else ...`). -/
def minOf : List Nat → Option Nat
  | [] => Option.none
  | x :: xs => some (xs.foldl Nat.min x)

mutual

/-- Contribution of one stored value to `Batch.size`: values with a
`__len__` (and positive ndim for arrays) contribute their length,
nested batches contribute their (recursive) `size`, other values are
skipped.  Mirrors the loop body of `Batch.size` in batch.py. -/
def BVal.sizeContrib : BVal → Option Nat
  | .arr xs => some xs.length
  | .arr2 xss => some xss.length
  | .scalar _ => Option.none
  | .lst xs => some xs.length
  | .none => Option.none
  | .sub fs => some (if fs.isEmpty then 0 else max 1 ((minOf (sizeList fs)).getD 0))

/-- The list `r` accumulated by `Batch.size` over the fields. -/
def sizeList : List (String × BVal) → List Nat
  | [] => []
  | p :: fs =>
    match p.2.sizeContrib with
    | Option.none => sizeList fs
    | some n => n :: sizeList fs

end

/-- `Batch.size` (the `size` property in batch.py): 0 for an empty
batch, otherwise `max(1, min(r) if len(r) > 0 else 0)`. -/
def Batch.size (fs : Batch) : Nat :=
  if fs.isEmpty then 0 else max 1 ((minOf (sizeList fs)).getD 0)

/-- Outcome of one field inside `Batch.__len__`: skipped, contributes
a length, or raises `TypeError`. -/
inductive LenRes : Type where
  | skip
  | len (n : Nat)
  | err
deriving DecidableEq

mutual

/-- One iteration of the loop in `Batch.__len__` (batch.py):
a zero-size nested batch or an empty list is skipped; a value with
`__len__` (arrays of positive ndim, non-empty lists, nested batches)
contributes its length, where `len` of a nested batch is recursive and
may itself raise; any other value raises `TypeError`. -/
def BVal.lenEntry : BVal → LenRes
  | .arr xs => .len xs.length
  | .arr2 xss => .len xss.length
  | .scalar _ => .err
  | .lst xs => if xs.isEmpty then .skip else .len xs.length
  | .none => .err
  | .sub fs =>
    if Batch.size fs = 0 then .skip
    else
      match lenList fs with
      | Option.none => .err
      | some ns =>
        match minOf ns with
        | Option.none => .err
        | some m => .len m

/-- The list `r` accumulated by `Batch.__len__`;
`Option.none` when some field raises `TypeError`. -/
def lenList : List (String × BVal) → Option (List Nat)
  | [] => some []
  | p :: fs =>
    match p.2.lenEntry, lenList fs with
    | .err, _ => Option.none
    | _, Option.none => Option.none
    | .skip, some r => some r
    | .len n, some r => some (n :: r)

end

/-- `Batch.__len__` (batch.py): min of the accumulated lengths;
`Option.none` models the raised `TypeError` (some field has no usable
length, or no field has a length at all). -/
def Batch.len (fs : Batch) : Option Nat :=
  match lenList fs with
  | Option.none => Option.none
  | some ns => minOf ns

/-- Lengths of the length-bearing fields, in field order. -/
def lenVals (fs : Batch) : List Nat :=
  fs.filterMap fun p =>
    match p.2.lenEntry with
    | .len n => some n
    | _ => Option.none

/-- Value stored under key `k` (first occurrence). -/
def lookupV (k : String) (fs : Batch) : Option BVal :=
  (fs.find? (fun p => p.1 == k)).map Prod.snd

/-- Indices accepted by `Batch.__getitem__` (besides strings): a
Python int, a list/array of ints, or a slice (`start`/`stop`, either
possibly absent). -/
inductive PyIndex : Type where
  | int (i : Int)
  | list (is : List Int)
  | slice (start stop : Option Int)
deriving DecidableEq

/-- Distinct error classes raised by the container operations. -/
inductive BErr : Type where
  | indexError
  | typeError
  | valueError
deriving DecidableEq

/-- Python-style bounds test for one integer index:
`-length <= index and index < length`. -/
def intInBounds (length : Nat) (i : Int) : Bool :=
  decide (-(length : Int) ≤ i) && decide (i < (length : Int))

/-- Minimum of a list of ints (`min(index)`); `Option.none` models the
`ValueError` Python raises on an empty list. -/
def listMinI : List Int → Option Int
  | [] => Option.none
  | x :: xs => some (xs.foldl min x)

/-- Maximum of a list of ints (`max(index)`). -/
def listMaxI : List Int → Option Int
  | [] => Option.none
  | x :: xs => some (xs.foldl max x)

/-- `_valid_bounds` from `Batch.__getitem__`: an int index must lie in
`[-length, length)`; a list index is checked through its min and max;
a slice is checked through its `start` and `stop - 1` when present.
`Option.none` models the `ValueError` of `min`/`max` on an empty list. -/
def validBounds (length : Nat) : PyIndex → Option Bool
  | .int i => some (intInBounds length i)
  | .list is =>
    match listMinI is, listMaxI is with
    | some mn, some mx => some (intInBounds length mn && intInBounds length mx)
    | _, _ => Option.none
  | .slice st sp =>
    let sOK := match st with
      | Option.none => true
      | some s => intInBounds length s
    let pOK := match sp with
      | Option.none => true
      | some p => intInBounds length (p - 1)
    some (sOK && pOK)

/-- Normalize a (possibly negative) Python index against a length;
`Option.none` models the `IndexError` of an out-of-range access. -/
def normIdx (length : Nat) (i : Int) : Option Nat :=
  let j := if i < 0 then i + length else i
  if 0 ≤ j ∧ j < (length : Int) then some j.toNat else Option.none

/-- Normalize every index of a numpy fancy-indexing array; any
out-of-range entry raises. -/
def normAll (length : Nat) : List Int → Option (List Nat)
  | [] => some []
  | i :: is =>
    match normIdx length i, normAll length is with
    | some j, some js => some (j :: js)
    | _, _ => Option.none

/-- Clamp one endpoint of a slice against a length, Python-style. -/
def sliceClamp (length : Nat) (i : Int) : Nat :=
  (if i < 0 then max 0 (i + length) else min i (length : Int)).toNat

/-- Python slice `xs[start:stop]` over a sequence of length
`xs.length`. -/
def sliceList (st sp : Option Int) (xs : List α) : List α :=
  let a := sliceClamp xs.length (st.getD 0)
  let b := sliceClamp xs.length (sp.getD (xs.length : Int))
  (xs.drop a).take (b - a)

/-- `len(v)` for a stored value; `Option.none` models the `TypeError`
of `len` on a value with no `__len__` (and, for a nested batch, a
recursive `len` failure). -/
def lenOfVal : BVal → Option Nat
  | .arr xs => some xs.length
  | .arr2 xss => some xss.length
  | .scalar _ => Option.none
  | .lst xs => some xs.length
  | .none => Option.none
  | .sub fs => Batch.len fs

/-- `hasattr(v, '__len__') and (not isinstance(v, ndarray/Tensor) or
v.ndim > 0)`: the condition under which `Batch.__getitem__` indexes a
field (arrays in this model always have positive ndim). -/
def hasLen : BVal → Bool
  | .arr _ => true
  | .arr2 _ => true
  | .scalar _ => false
  | .lst _ => true
  | .none => false
  | .sub _ => true

/-- Python `v[index]` for a 1-D array: integer indexing yields a
(numpy) scalar, list indexing is fancy indexing, slices slice. -/
def valueOfArr (xs : List Int) : PyIndex → Except BErr BVal
  | .int i =>
    match normIdx xs.length i with
    | some j => .ok (.scalar (xs.getD j 0))
    | Option.none => .error .indexError
  | .list is =>
    match normAll xs.length is with
    | some js => .ok (.arr (js.map (fun j => xs.getD j 0)))
    | Option.none => .error .indexError
  | .slice st sp => .ok (.arr (sliceList st sp xs))

/-- Python `v[index]` for a 2-D array: rows are selected. -/
def valueOfArr2 (xss : List (List Int)) : PyIndex → Except BErr BVal
  | .int i =>
    match normIdx xss.length i with
    | some j => .ok (.arr (xss.getD j []))
    | Option.none => .error .indexError
  | .list is =>
    match normAll xss.length is with
    | some js => .ok (.arr2 (js.map (fun j => xss.getD j [])))
    | Option.none => .error .indexError
  | .slice st sp => .ok (.arr2 (sliceList st sp xss))

/-- Python `v[index]` for a Python list: integer indexing and slicing
work, indexing with a list/array of ints raises `TypeError`. -/
def valueOfLst (xs : List Int) : PyIndex → Except BErr BVal
  | .int i =>
    match normIdx xs.length i with
    | some j => .ok (.scalar (xs.getD j 0))
    | Option.none => .error .indexError
  | .list _ => .error .typeError
  | .slice st sp => .ok (.lst (sliceList st sp xs))

mutual

/-- Treatment of one field `v` inside `Batch.__getitem__`'s loop
(batch.py): a zero-size nested batch is passed through as a fresh
empty batch, an empty list is passed through as an empty list, and a
value without `__len__` is silently dropped (`.ok Option.none`).  A
length-bearing value is first bounds-checked against `len(v)` (an
out-of-bounds index raises `IndexError`), then indexed via `v[index]`;
for a nested batch `v[index]` recurses into `Batch.__getitem__`,
which re-computes `len(v)` and re-checks the bounds itself. -/
def getFieldRec (idx : PyIndex) : BVal → Except BErr (Option BVal)
  | .sub [] => .ok (some (.sub []))
  | .lst [] => .ok (some (.lst []))
  | .scalar _ => .ok Option.none
  | .none => .ok Option.none
  | .arr xs =>
    match validBounds xs.length idx with
    | Option.none => .error .valueError
    | some false => .error .indexError
    | some true =>
      match valueOfArr xs idx with
      | .ok w => .ok (some w)
      | .error e => .error e
  | .arr2 xss =>
    match validBounds xss.length idx with
    | Option.none => .error .valueError
    | some false => .error .indexError
    | some true =>
      match valueOfArr2 xss idx with
      | .ok w => .ok (some w)
      | .error e => .error e
  | .lst xs =>
    match validBounds xs.length idx with
    | Option.none => .error .valueError
    | some false => .error .indexError
    | some true =>
      match valueOfLst xs idx with
      | .ok w => .ok (some w)
      | .error e => .error e
  | .sub (g :: gs) =>
    match Batch.len (g :: gs) with
    | Option.none => .error .typeError
    | some lv =>
      match validBounds lv idx with
      | Option.none => .error .valueError
      | some false => .error .indexError
      | some true =>
        match Batch.len (g :: gs) with
        | Option.none => .error .typeError
        | some L =>
          match validBounds L idx with
          | Option.none => .error .valueError
          | some false => .error .indexError
          | some true =>
            match getItemGoRec idx (g :: gs) with
            | .ok r => .ok (some (.sub r))
            | .error e => .error e

/-- The field loop of `Batch.__getitem__`, over the fields in order. -/
def getItemGoRec (idx : PyIndex) : List (String × BVal) → Except BErr (List (String × BVal))
  | [] => .ok []
  | (k, v) :: fs =>
    match getFieldRec idx v with
    | .error e => .error e
    | .ok r =>
      match getItemGoRec idx fs with
      | .error e => .error e
      | .ok rest =>
        .ok (match r with
          | some w => (k, w) :: rest
          | Option.none => rest)

end

/-- `Batch.__getitem__` (batch.py) for non-string indices: first the
index is bounds-checked against `len(self)` (whose `TypeError`
propagates), then each field is processed by `getFieldRec`. -/
def getItem (fs : Batch) (idx : PyIndex) : Except BErr Batch :=
  match Batch.len fs with
  | Option.none => .error .typeError
  | some L =>
    match validBounds L idx with
    | Option.none => .error .valueError
    | some false => .error .indexError
    | some true => getItemGoRec idx fs

mutual

/-- Python `r + val` for a field value `r` and a number `val`, as used
by the scalar branch of `Batch.__iadd__` / `__add__` (batch.py):
numbers and array elements are shifted, a nested batch recursively
adds the number to each of its fields (`Batch.__add__` with a number). -/
def addScalarField : BVal → Int → BVal
  | .none, _ => .none
  | .lst xs, c => .lst (xs.map (fun x => x + c))
  | .scalar x, c => .scalar (x + c)
  | .arr xs, c => .arr (xs.map (fun x => x + c))
  | .arr2 xss, c => .arr2 (xss.map (fun r => r.map (fun x => x + c)))
  | .sub fs, c => .sub (addScalarBatch fs c)

/-- The field loop of the scalar branch of `Batch.__iadd__`. -/
def addScalarBatch : List (String × BVal) → Int → List (String × BVal)
  | [], _ => []
  | (k, v) :: fs, c => (k, addScalarField v c) :: addScalarBatch fs c

end

/-- 1-D numpy addition with broadcasting: equal lengths add
element-wise, a length-1 operand broadcasts; other shape pairs fail
(`Option.none` models the raised error). -/
def broadcastAdd (xs ys : List Int) : Option (List Int) :=
  if xs.length = ys.length then some (List.zipWith (· + ·) xs ys)
  else
    match xs, ys with
    | [x], ys => some (ys.map (fun y => x + y))
    | xs, [y] => some (xs.map (fun x => x + y))
    | _, _ => Option.none

mutual

/-- One step of the Batch branch of `Batch.__iadd__` for a single
field (batch.py): a `None` field stays `None`; a Python-list field is
combined by `[r_ + v_ for r_, v_ in zip(r, v)]`, which works when `v`
is a list or 1-D array of numbers (zip truncates at the shorter
operand) and raises otherwise; every other field uses Python `r + v`
(the cases below the list ones): numpy addition for arrays and
numbers, `Batch.__add__` recursion for two nested batches or a nested
batch and a number; unsupported operand pairs raise (`Option.none`).
2-D shapes are supported only when they match exactly or against a
matching 1-D row (a modelling restriction; the claims never add 2-D
values). -/
def iaddField : BVal → BVal → Option BVal
  | .none, _ => some .none
  | .lst xs, .lst ys => some (.lst (List.zipWith (· + ·) xs ys))
  | .lst xs, .arr ys => some (.lst (List.zipWith (· + ·) xs ys))
  | .lst _, _ => Option.none
  | .scalar x, .scalar y => some (.scalar (x + y))
  | .scalar x, .arr ys => some (.arr (ys.map (fun y => x + y)))
  | .arr xs, .scalar y => some (.arr (xs.map (fun x => x + y)))
  | .arr xs, .arr ys => (broadcastAdd xs ys).map .arr
  | .arr xs, .lst ys => (broadcastAdd xs ys).map .arr
  | .arr2 xss, .scalar y => some (.arr2 (xss.map (fun r => r.map (fun x => x + y))))
  | .arr2 xss, .arr2 yss =>
    if xss.map List.length = yss.map List.length then
      some (.arr2 (List.zipWith (List.zipWith (· + ·)) xss yss))
    else Option.none
  | .arr2 xss, .arr ys =>
    if xss.all (fun r => r.length = ys.length) then
      some (.arr2 (xss.map (fun r => List.zipWith (· + ·) r ys)))
    else Option.none
  | .sub fs, .sub gs => (iaddBatch fs (gs.map Prod.snd)).map .sub
  | .sub fs, .scalar c => some (.sub (addScalarBatch fs c))
  | _, _ => Option.none

/-- The Batch branch of `Batch.__iadd__` (batch.py): it iterates
`zip(self._data.keys(), self._data.values(), val._data.values())` —
the k-th key of `self` is paired with the k-th value of `val`
POSITIONALLY; the zip truncates at the shorter batch, leaving the
remaining fields of `self` unchanged. -/
def iaddBatch : List (String × BVal) → List BVal → Option (List (String × BVal))
  | fs, [] => some fs
  | [], _ :: _ => some []
  | (k, r) :: fs, v :: vs =>
    match iaddField r v, iaddBatch fs vs with
    | some w, some rest => some ((k, w) :: rest)
    | _, _ => Option.none

end

/-- `Batch.__add__` with a Batch argument: deep-copy then `__iadd__`. -/
def Batch.addB (a b : Batch) : Option Batch :=
  iaddBatch a (b.map Prod.snd)

/-- `Batch.__add__` with a number argument: deep-copy then the scalar
branch of `__iadd__`. -/
def Batch.addScalar (a : Batch) (c : Int) : Batch :=
  addScalarBatch a c

/-- Payload of a nested-batch value (used by the stacking
construction to collect the fields of the stacked sub-batches). -/
def subFieldsOf : BVal → Option (List (String × BVal))
  | .sub g => some g
  | _ => Option.none

theorem sizeOf_filterMap_head_le (rows : List (List BVal)) :
    sizeOf (rows.filterMap List.head?) ≤ sizeOf rows := by
  induction rows with
  | nil => simp
  | cons r rs ih =>
    cases r with
    | nil => simp only [List.filterMap_cons, List.head?]; simp; omega
    | cons x xs => simp only [List.filterMap_cons, List.head?]; simp; omega

theorem sizeOf_map_tail_le (rows : List (List BVal)) :
    sizeOf (rows.map List.tail) ≤ sizeOf rows := by
  induction rows with
  | nil => simp
  | cons r rs ih =>
    cases r with
    | nil => simp; omega
    | cons x xs => simp [List.tail]; omega

theorem sizeOf_map_snd_le (b : List (String × BVal)) :
    sizeOf (b.map Prod.snd) ≤ sizeOf b := by
  induction b with
  | nil => simp
  | cons p fs ih =>
    cases p with
    | mk k v => simp; omega

theorem sizeOf_rows_le (bs : List (List (String × BVal))) :
    sizeOf (bs.map (fun b => b.map Prod.snd)) ≤ sizeOf bs := by
  induction bs with
  | nil => simp
  | cons b rest ih =>
    have := sizeOf_map_snd_le b
    simp
    omega

/-- Collect the field lists of a column of nested-batch values
(`[e.values() for e in batch_dict]` preparation for the recursive
`Batch(v)` call); fails when some element is not a nested batch. -/
def extractSubs : List BVal → Option (List (List (String × BVal)))
  | [] => some []
  | v :: vs =>
    match subFieldsOf v, extractSubs vs with
    | some g, some gs => some (g :: gs)
    | _, _ => Option.none

/-- Collect the element lists of a column of 1-D array values. -/
def extractArrs : List BVal → Option (List (List Int))
  | [] => some []
  | v :: vs =>
    match v, extractArrs vs with
    | .arr xs, some rows => some (xs :: rows)
    | _, _ => Option.none

/-- Collect the numbers of a column of Python-number values. -/
def extractScalars : List BVal → Option (List Int)
  | [] => some []
  | v :: vs =>
    match v, extractScalars vs with
    | .scalar x, some ns => some (x :: ns)
    | _, _ => Option.none

theorem sizeOf_extractSubs_le :
    ∀ (vs : List BVal) (gs : List (List (String × BVal))),
      extractSubs vs = some gs → sizeOf gs ≤ sizeOf vs := by
  intro vs
  induction vs with
  | nil =>
    intro gs h
    simp only [extractSubs] at h
    cases h
    simp
  | cons v vs ih =>
    intro gs h
    simp only [extractSubs] at h
    cases hv : subFieldsOf v with
    | none => rw [hv] at h; cases h
    | some g =>
      cases hrest : extractSubs vs with
      | none => rw [hv, hrest] at h; cases h
      | some gs2 =>
        rw [hv, hrest] at h
        cases h
        have h1 : sizeOf g < sizeOf v := by
          cases v <;> simp [subFieldsOf] at hv
          rw [← hv]
          simp
        have h2 := ih gs2 hrest
        simp
        omega

theorem sizeOf_extractSubs_lt (v : BVal) (vs : List BVal)
    (gs : List (List (String × BVal))) (h : extractSubs (v :: vs) = some gs) :
    sizeOf gs < sizeOf (v :: vs) := by
  simp only [extractSubs] at h
  cases hv : subFieldsOf v with
  | none => rw [hv] at h; cases h
  | some g =>
    cases hrest : extractSubs vs with
    | none => rw [hv, hrest] at h; cases h
    | some gs2 =>
      rw [hv, hrest] at h
      cases h
      have h1 : sizeOf g < sizeOf v := by
        cases v <;> simp [subFieldsOf] at hv
        rw [← hv]
        simp
      have h2 := sizeOf_extractSubs_le vs gs2 hrest
      simp
      omega

mutual

/-- Dispatch of the list-stacking construction path of
`Batch.__init__` (batch.py) on one transposed column `v` of values,
keyed by the type of the column's first element: nested batches (and
dicts) are rebuilt recursively through the same construction path
(`Batch(v)` / `Batch.stack(v)`, which are identical), 1-D arrays are
`np.stack`-ed into a 2-D array (equal lengths required), Python
numbers are collected into a Python list (`list(v)`).  Columns whose
elements are not all of the head's kind, and kinds whose stacking
leaves the modelled value domain (2-D arrays, lists, `None`), are
`Option.none`. -/
def stackVal (col : List BVal) : Option BVal :=
  match col with
  | [] => Option.none
  | .sub g1 :: vs =>
    match h : extractSubs (.sub g1 :: vs) with
    | some [] => Option.none
    | some (g0 :: grest) =>
      match stackGo (g0.map Prod.fst) ((g0 :: grest).map (fun b => b.map Prod.snd)) with
      | some r => some (.sub r)
      | Option.none => Option.none
    | Option.none => Option.none
  | .arr a1 :: vs =>
    match extractArrs (.arr a1 :: vs) with
    | some [] => Option.none
    | some (r0 :: rows) =>
      if (r0 :: rows).all (fun r => r.length = r0.length) then some (.arr2 (r0 :: rows))
      else Option.none
    | Option.none => Option.none
  | .scalar x1 :: vs =>
    match extractScalars (.scalar x1 :: vs) with
    | some ns => some (.lst ns)
    | Option.none => Option.none
  | _ => Option.none
termination_by (sizeOf col, 0)
decreasing_by
  apply Prod.Lex.left
  have h1 := sizeOf_extractSubs_lt (.sub g1) vs (g0 :: grest) h
  have h2 := sizeOf_rows_le (g0 :: grest)
  omega

/-- The loop of the list-stacking construction path of
`Batch.__init__`: `zip(batch_dict[0].keys(), zip(*[e.values() for e in
batch_dict]))` — keys come from the first batch, value columns are the
positional transpose of all batches' value lists, and the zip stops as
soon as some batch runs out of values. -/
def stackGo (ks : List String) (rows : List (List BVal)) : Option (List (String × BVal)) :=
  match ks with
  | [] => some []
  | k :: ks2 =>
    if rows.any List.isEmpty then some []
    else
      match stackVal (rows.filterMap List.head?), stackGo ks2 (rows.map List.tail) with
      | some v, some rest => some ((k, v) :: rest)
      | _, _ => Option.none
termination_by (sizeOf rows, sizeOf ks)
decreasing_by
  · rcases Nat.lt_or_ge (sizeOf (rows.filterMap List.head?)) (sizeOf rows) with hlt | hge
    · exact Prod.Lex.left _ _ hlt
    · have hle := sizeOf_filterMap_head_le rows
      have heq : sizeOf (rows.filterMap List.head?) = sizeOf rows := by omega
      rw [heq]
      apply Prod.Lex.right
      simp only [List.cons.sizeOf_spec]
      omega
  · rcases Nat.lt_or_ge (sizeOf (rows.map List.tail)) (sizeOf rows) with hlt | hge
    · exact Prod.Lex.left _ _ hlt
    · have hle := sizeOf_map_tail_le rows
      have heq : sizeOf (rows.map List.tail) = sizeOf rows := by omega
      rw [heq]
      apply Prod.Lex.right
      simp only [List.cons.sizeOf_spec]
      omega

end

/-- The list-stacking construction path of `Batch.__init__`
(batch.py): an empty list builds an empty batch; otherwise keys are
taken from the first batch and each transposed value column is stacked
by `stackVal`. -/
def batchOfList (bs : List Batch) : Option Batch :=
  match bs with
  | [] => some []
  | b0 :: rest => stackGo (b0.map Prod.fst) ((b0 :: rest).map (fun b => b.map Prod.snd))

/-- `Batch.stack` (batch.py): it just calls the class constructor on
the list, `cls(batches)`. -/
def Batch.stackB (bs : List Batch) : Option Batch :=
  batchOfList bs

mutual

/-- No field of the value is a non-empty Python list, recursively:
such fields make `v[array_of_ints]` raise `TypeError` and so make
`Batch.split` fail. -/
def noListFields : BVal → Bool
  | .lst xs => xs.isEmpty
  | .sub gs => noListFieldsB gs
  | _ => true

/-- `noListFields` over a field list. -/
def noListFieldsB : List (String × BVal) → Bool
  | [] => true
  | (_, v) :: fs => noListFields v && noListFieldsB fs

end

/-- Materialize the sub-batches `self[indices[idx:idx+size]]` yielded
by `Batch.split`; an exception while producing any of them makes the
whole iteration fail. -/
def splitPieces (fs : Batch) : List (List Int) → Option (List Batch)
  | [] => some []
  | ch :: rest =>
    match getItem fs (.list ch), splitPieces fs rest with
    | .ok b, some bs => some (b :: bs)
    | _, _ => Option.none

/-- The chunks `indices[idx:idx+size]` for `idx in np.arange(0,
length, size)`. -/
def splitChunks (s L : Nat) (indices : List Nat) : List (List Int) :=
  (List.range ((L + s - 1) / s)).map
    (fun j => ((indices.drop (j * s)).take s).map Int.ofNat)

/-- `Batch.split(size, shuffle)` (batch.py), with the value of
`np.random.permutation(length)` (shuffle) or `np.arange(length)` (no
shuffle) supplied as the `indices` argument.  `length = len(self)`
(whose `TypeError` propagates); `size = 0` makes `np.arange` raise.
The generator yields `self[indices[idx:idx+size]]` for `idx` in
`np.arange(0, length, size)`. -/
def Batch.splitB (fs : Batch) (s : Nat) (indices : List Nat) : Option (List Batch) :=
  if s = 0 then Option.none
  else
    match Batch.len fs with
    | Option.none => Option.none
    | some L => splitPieces fs (splitChunks s L indices)

/-!
### Part 2: the synchronous Collector

Model of `Collector.collect` (src/tianshou/data/collector.py).  The
external vectorized environment is modelled as a deterministic
responder: per environment id, the step outcome (next observation,
info, terminated/truncated flags) is a function of the number of steps
that environment has taken so far in this call and of the action it
receives; `reset` yields a fixed per-environment observation/info.
The external policy is modelled by its interface functions
(`forward`, `exploration_noise`, `map_action`, `map_action_inverse`,
action-space sampling); its hidden-state output is modelled as always
present (an array) in the non-random path.  Observations, infos,
actions and hidden states are abstracted as integers.
-/

/-- External vectorized environment, as consumed by the Collector. -/
structure EnvModel where
  E : Nat
  obsF : Nat → Nat → Int → Int
  infoF : Nat → Nat → Int → Int
  termF : Nat → Nat → Int → Bool
  truncF : Nat → Nat → Int → Bool
  resetObs : Nat → Int
  resetInfo : Nat → Int

/-- External policy interface, as consumed by the Collector. -/
structure PolicyModel where
  polF : Int → Int
  hidF : Int → Int
  noiseF : Int → Int
  mapA : Int → Int
  mapAInv : Int → Int
  sampleF : Nat → Nat → Int

/-- One transition row as inserted into the replay buffer by
`buffer.add` (the fields relevant to the claims). -/
structure BufEntry where
  env : Nat
  obs : Int
  act : Int
  obsNext : Int
  done : Bool
deriving DecidableEq

/-- Record of one environment slot receiving an action in a
`env.step` call. -/
structure EnvCall where
  env : Nat
  act : Int
deriving DecidableEq

/-- State of the `while True` loop in `Collector.collect`:
the ready env ids, each env's step counter (internal to the env
model), the per-ready-slot `last_obs`/`last_info`/`last_hidden_state`,
the `step_count`/`num_collected_episodes` counters, the env ids whose
episode stats were recorded (`episode_lens`/`episode_returns`), the
transitions added to the buffer and the env-step calls made so far. -/
structure LoopState where
  ready : List Nat
  steps : Nat → Nat
  lastObs : List Int
  lastInfo : List Int
  lastHid : Option (List Int)
  stepCount : Nat
  numEps : Nat
  epsBy : List Nat
  buf : List BufEntry
  calls : List EnvCall

/-- Filter a list through a boolean mask (numpy boolean-mask
indexing `xs[mask]`); extra elements on either side are dropped. -/
def maskFilter : List Bool → List α → List α
  | true :: ms, x :: xs => x :: maskFilter ms xs
  | false :: ms, _ :: xs => maskFilter ms xs
  | _, _ => []

/-- Env id at ready position `j`. -/
def iterEAt (st : LoopState) (j : Nat) : Nat := st.ready.getD j 0

/-- Last observation at ready position `j`. -/
def iterOAt (st : LoopState) (j : Nat) : Int := st.lastObs.getD j 0

/-- Step counter of the env at ready position `j`. -/
def iterTAt (st : LoopState) (j : Nat) : Nat := st.steps (iterEAt st j)

/-- The action `act_RA` computed by `_compute_action_policy_hidden`
for ready position `j`: with `random` the inverse-mapped sample, else
the policy's raw action, noised first when `exploration_noise` is
enabled.  This is the action stored in the buffer. -/
def iterActAt (pm : PolicyModel) (random explNoise : Bool) (st : LoopState) (j : Nat) : Int :=
  if random then pm.mapAInv (pm.sampleF (iterEAt st j) (iterTAt st j))
  else if explNoise then pm.noiseF (pm.polF (iterOAt st j)) else pm.polF (iterOAt st j)

/-- The action `act_normalized_RA` for ready position `j`: with
`random` the raw sample from the action space, else `map_action` of
the (noised) raw action.  This is the action passed to `env.step`. -/
def iterActEnvAt (pm : PolicyModel) (random explNoise : Bool) (st : LoopState) (j : Nat) : Int :=
  if random then pm.sampleF (iterEAt st j) (iterTAt st j)
  else pm.mapA (iterActAt pm random explNoise st j)

/-- Next observation returned by `env.step` for ready position `j`. -/
def iterObsNextAt (em : EnvModel) (pm : PolicyModel) (random explNoise : Bool)
    (st : LoopState) (j : Nat) : Int :=
  em.obsF (iterEAt st j) (iterTAt st j) (iterActEnvAt pm random explNoise st j)

/-- Info returned by `env.step` for ready position `j`. -/
def iterInfoNextAt (em : EnvModel) (pm : PolicyModel) (random explNoise : Bool)
    (st : LoopState) (j : Nat) : Int :=
  em.infoF (iterEAt st j) (iterTAt st j) (iterActEnvAt pm random explNoise st j)

/-- The `done` flag (`terminated or truncated`) for ready position `j`. -/
def iterDoneAt (em : EnvModel) (pm : PolicyModel) (random explNoise : Bool)
    (st : LoopState) (j : Nat) : Bool :=
  em.termF (iterEAt st j) (iterTAt st j) (iterActEnvAt pm random explNoise st j)
    || em.truncF (iterEAt st j) (iterTAt st j) (iterActEnvAt pm random explNoise st j)

/-- One iteration of the `while True` loop of `Collector.collect`:
compute actions (`_compute_action_policy_hidden`), step the ready
envs, add one transition per ready env to the buffer, update the
counters, reset the done envs' observation/info/hidden state, and in
`n_episode` mode drop surplus just-finished envs from the ready set. -/
def collectIter (em : EnvModel) (pm : PolicyModel) (random explNoise : Bool)
    (nEpisode : Option Nat) (st : LoopState) : LoopState :=
  let R := st.ready.length
  let eAt := iterEAt st
  let oAt := iterOAt st
  let actAt := iterActAt pm random explNoise st
  let actEnvAt := iterActEnvAt pm random explNoise st
  let obsNextAt := iterObsNextAt em pm random explNoise st
  let infoNextAt := iterInfoNextAt em pm random explNoise st
  let doneAt := iterDoneAt em pm random explNoise st
  let idxs := List.range R
  let buf2 := st.buf ++ idxs.map (fun j => ⟨eAt j, oAt j, actAt j, obsNextAt j, doneAt j⟩)
  let calls2 := st.calls ++ idxs.map (fun j => ⟨eAt j, actEnvAt j⟩)
  let donePos := idxs.filter doneAt
  let D := donePos.length
  let numEps2 := st.numEps + D
  let epsBy2 := st.epsBy ++ donePos.map eAt
  let steps2 := fun e => if e ∈ st.ready then st.steps e + 1 else st.steps e
  let lastObs2 := idxs.map (fun j => if doneAt j then em.resetObs (eAt j) else obsNextAt j)
  let lastInfo2 := idxs.map (fun j => if doneAt j then em.resetInfo (eAt j) else infoNextAt j)
  let hid : Option (List Int) :=
    if random then Option.none else some (idxs.map (fun j => pm.hidF (oAt j)))
  let lastHid2 := hid.map (fun h => idxs.map (fun j => if doneAt j then 0 else h.getD j 0))
  let base : LoopState :=
    ⟨st.ready, steps2, lastObs2, lastInfo2, lastHid2, st.stepCount + R, numEps2, epsBy2,
      buf2, calls2⟩
  match nEpisode with
  | Option.none => base
  | some n =>
    if D > 0 then
      let surplus : Int := (R : Int) - ((n : Int) - (numEps2 : Int))
      if surplus > 0 then
        let toDrop := donePos.take surplus.toNat
        let keepMask := idxs.map (fun j => decide (j ∉ toDrop))
        ⟨maskFilter keepMask st.ready, steps2, maskFilter keepMask lastObs2,
          maskFilter keepMask lastInfo2, lastHid2.map (maskFilter keepMask),
          st.stepCount + R, numEps2, epsBy2, buf2, calls2⟩
      else base
    else base

/-- The ready positions whose episode just finished in this iteration
(`np.where(done_R)[0]`). -/
def iterDonePos (em : EnvModel) (pm : PolicyModel) (random explNoise : Bool)
    (st : LoopState) : List Nat :=
  (List.range st.ready.length).filter (iterDoneAt em pm random explNoise st)

/-- `surplus_env_num = len(ready_env_ids_R) - (n_episode -
num_collected_episodes)` computed after adding this iteration's
finished episodes. -/
def iterSurplus (em : EnvModel) (pm : PolicyModel) (random explNoise : Bool) (n : Nat)
    (st : LoopState) : Int :=
  (st.ready.length : Int) -
    ((n : Int) - ((st.numEps + (iterDonePos em pm random explNoise st).length : Nat) : Int))

/-- The loop exit test of `Collector.collect`:
`(n_step and step_count >= n_step) or (n_episode and
num_collected_episodes >= n_episode)`. -/
def breakCond (nStep nEpisode : Option Nat) (st : LoopState) : Bool :=
  (match nStep with
    | some k => decide (k ≤ st.stepCount)
    | Option.none => false)
  || (match nEpisode with
    | some n => decide (n ≤ st.numEps)
    | Option.none => false)

/-- The `while True` loop of `Collector.collect`, with an explicit
iteration budget (`Option.none` = the budget ran out before the quota
was met; the Python loop would still be running). -/
def collectLoop (em : EnvModel) (pm : PolicyModel) (random explNoise : Bool)
    (nStep nEpisode : Option Nat) : Nat → LoopState → Option LoopState
  | 0, _ => Option.none
  | fuel + 1, st =>
    let st2 := collectIter em pm random explNoise nEpisode st
    if breakCond nStep nEpisode st2 then some st2
    else collectLoop em pm random explNoise nStep nEpisode fuel st2

/-- Distinct Python exception classes raised by `Collector.collect`. -/
inductive CErr : Type where
  | assertionError
  | typeError
  | valueError
deriving DecidableEq

/-- Persistent state of a `Collector` object: the pre-collect
observation/info/hidden state, the attached buffer's contents, and the
`collect_step`/`collect_episode` statistics. -/
structure CollectorState where
  preObs : Option (List Int)
  preInfo : Option (List Int)
  preHid : Option (List Int)
  buffer : List BufEntry
  collectStep : Nat
  collectEpisode : Nat
deriving DecidableEq

/-- The data returned in `CollectStats` that the claims speak about,
together with the transitions added and env-step calls made during
this collect call. -/
structure CollectStatsM where
  nCollectedSteps : Nat
  nCollectedEpisodes : Nat
  episodeEnvs : List Nat
  newTransitions : List BufEntry
  envCalls : List EnvCall
deriving DecidableEq

/-- `Collector.reset_env`: reset all envs and the pre-collect
observation/info, and clear the pre-collect hidden state. -/
def resetEnvState (em : EnvModel) (c : CollectorState) : CollectorState :=
  ⟨some ((List.range em.E).map em.resetObs), some ((List.range em.E).map em.resetInfo),
    Option.none, c.buffer, c.collectStep, c.collectEpisode⟩

/-- `Collector.reset(reset_buffer=False)` as invoked for
`reset_before_collect`: `reset_env` plus `reset_stat` (the buffer is
kept). -/
def resetForCollect (em : EnvModel) (c : CollectorState) : CollectorState :=
  let c2 := resetEnvState em c
  ⟨c2.preObs, c2.preInfo, c2.preHid, c2.buffer, 0, 0⟩

/-- Body of `Collector.collect` after argument validation: optional
reset, the check that the pre-collect observation and info are
present (else `ValueError`, with the collector untouched), the loop,
and the mode-dependent epilogue: `n_step` persists the final
`last_obs`/`last_info`/`last_hidden_state` into the pre-collect
fields, `n_episode` resets all envs (`reset_env`). -/
def collectMain (em : EnvModel) (pm : PolicyModel) (c : CollectorState)
    (nStep nEpisode : Option Nat) (ready0 : List Nat) (random explNoise resetBefore : Bool)
    (fuel : Nat) : Option ((Except CErr CollectStatsM) × CollectorState) :=
  let c1 := if resetBefore then resetForCollect em c else c
  match c1.preObs, c1.preInfo with
  | some os, some infos =>
    let st0 : LoopState := ⟨ready0, fun _ => 0, os, infos, c1.preHid, 0, 0, [], [], []⟩
    match collectLoop em pm random explNoise nStep nEpisode fuel st0 with
    | Option.none => Option.none
    | some st2 =>
      let stats : CollectStatsM := ⟨st2.stepCount, st2.numEps, st2.epsBy, st2.buf, st2.calls⟩
      let c2 : CollectorState := ⟨c1.preObs, c1.preInfo, c1.preHid, c1.buffer ++ st2.buf,
        c1.collectStep + st2.stepCount, c1.collectEpisode + st2.numEps⟩
      let c3 := match nStep with
        | some _ =>
          (⟨some st2.lastObs, some st2.lastInfo, st2.lastHid, c2.buffer, c2.collectStep,
            c2.collectEpisode⟩ : CollectorState)
        | Option.none => resetEnvState em c2
      some (.ok stats, c3)
  | _, _ => some (.error .valueError, c1)

/-- `Collector.collect` (collector.py): argument validation (exactly
one of `n_step`/`n_episode`, positive; `n_episode` at least the number
of envs), the initial ready set (`arange(E)` resp. `arange(min(E,
n_episode))`), then `collectMain`. -/
def Collector.collect (em : EnvModel) (pm : PolicyModel) (c : CollectorState)
    (nStep nEpisode : Option Nat) (random explNoise resetBefore : Bool) (fuel : Nat) :
    Option ((Except CErr CollectStatsM) × CollectorState) :=
  match nStep, nEpisode with
  | some _, some _ => some (.error .assertionError, c)
  | some k, Option.none =>
    if k = 0 then some (.error .assertionError, c)
    else collectMain em pm c (some k) Option.none (List.range em.E) random explNoise
      resetBefore fuel
  | Option.none, some n =>
    if n = 0 then some (.error .assertionError, c)
    else if em.E > n then some (.error .valueError, c)
    else collectMain em pm c Option.none (some n) (List.range (min em.E n)) random explNoise
      resetBefore fuel
  | Option.none, Option.none => some (.error .typeError, c)

/-- A tiny concrete environment: 2 envs, every step terminates. -/
def emAll : EnvModel :=
  ⟨2, fun e t _ => (e : Int) + t, fun _ _ _ => 0, fun _ _ _ => true, fun _ _ _ => false,
    fun e => (e : Int) * 10, fun _ => 0⟩

/-- A tiny concrete policy. -/
def pmId : PolicyModel :=
  ⟨fun o => o + 1, fun o => o, fun a => a + 100, fun a => 2 * a, fun a => a / 2,
    fun e t => (e : Int) + t⟩

/-- A collector state that has been reset. -/
def cReady : CollectorState :=
  ⟨some [0, 10], some [0, 0], Option.none, [], 0, 0⟩

/-! ### Helper lemmas about `minOf` and `lenList` -/

theorem foldl_min_facts [LinearOrder α] (xs : List α) :
    ∀ a : α, (xs.foldl min a ≤ a) ∧ (∀ x ∈ xs, xs.foldl min a ≤ x) ∧
      (xs.foldl min a = a ∨ xs.foldl min a ∈ xs) := by
  induction xs with
  | nil => intro a; simp
  | cons y ys ih =>
    intro a
    have h := ih (min a y)
    refine ⟨?_, ?_, ?_⟩
    · exact le_trans h.1 (min_le_left a y)
    · intro x hx
      rcases List.mem_cons.1 hx with rfl | hx2
      · exact le_trans h.1 (min_le_right a x)
      · exact h.2.1 x hx2
    · rcases h.2.2 with heq | hmem
      · rw [List.foldl_cons, heq]
        rcases min_choice a y with h1 | h1
        · exact Or.inl h1
        · exact Or.inr (by rw [h1]; exact List.mem_cons_self y ys)
      · exact Or.inr (List.mem_cons_of_mem y hmem)

theorem minOf_spec (l : List Nat) (m : Nat) (h : minOf l = some m) :
    m ∈ l ∧ ∀ x ∈ l, m ≤ x := by
  cases l with
  | nil => cases h
  | cons x xs =>
    simp only [minOf, Option.some_inj] at h
    subst h
    have hf := foldl_min_facts xs x
    constructor
    · rcases hf.2.2 with heq | hmem
      · rw [heq]; exact List.mem_cons_self x xs
      · exact List.mem_cons_of_mem x hmem
    · intro y hy
      rcases List.mem_cons.1 hy with rfl | hy2
      · exact hf.1
      · exact hf.2.1 y hy2

theorem minOf_isSome (l : List Nat) (hne : l ≠ []) : ∃ m, minOf l = some m := by
  cases l with
  | nil => exact absurd rfl hne
  | cons x xs => exact ⟨_, rfl⟩

theorem minOf_const (l : List Nat) (a : Nat) (hne : l ≠ []) (hall : ∀ x ∈ l, x = a) :
    minOf l = some a := by
  obtain ⟨m, hm⟩ := minOf_isSome l hne
  have := (minOf_spec l m hm).1
  rw [hm, hall m this]

theorem lenList_no_err (fs : Batch) (hok : ∀ p ∈ fs, p.2.lenEntry ≠ .err) :
    lenList fs = some (lenVals fs) := by
  induction fs with
  | nil => rfl
  | cons p fs ih =>
    have hih := ih (fun q hq => hok q (List.mem_cons_of_mem p hq))
    have hp := hok p (List.mem_cons_self p fs)
    cases he : p.2.lenEntry with
    | err => exact absurd he hp
    | skip => simp only [lenList, lenVals, List.filterMap_cons, he, hih]
    | len n => simp only [lenList, lenVals, List.filterMap_cons, he, hih]

theorem lenList_err (fs : Batch) (p : String × BVal) (hp : p ∈ fs)
    (he : p.2.lenEntry = .err) : lenList fs = Option.none := by
  induction fs with
  | nil => cases hp
  | cons q fs ih =>
    rcases List.mem_cons.1 hp with rfl | hmem
    · simp only [lenList, he]
    · have hn := ih hmem
      cases hq : q.2.lenEntry <;> simp only [lenList, hq, hn]

theorem lenList_some (fs : Batch) (ns : List Nat) (h : lenList fs = some ns) :
    (∀ p ∈ fs, p.2.lenEntry ≠ .err) ∧ ns = lenVals fs := by
  induction fs generalizing ns with
  | nil =>
    simp only [lenList, Option.some_inj] at h
    subst h
    refine ⟨?_, rfl⟩
    intro p hp
    cases hp
  | cons q fs ih =>
    simp only [lenList] at h
    cases hq : q.2.lenEntry with
    | err =>
      simp only [hq] at h
      exact Option.noConfusion h
    | skip =>
      simp only [hq] at h
      cases hrest : lenList fs with
      | none =>
        simp only [hrest] at h
        exact Option.noConfusion h
      | some r =>
        simp only [hrest, Option.some_inj] at h
        subst h
        obtain ⟨h1, h2⟩ := ih r hrest
        refine ⟨?_, ?_⟩
        · intro p hp
          rcases List.mem_cons.1 hp with rfl | hmem
          · rw [hq]; intro hc; cases hc
          · exact h1 p hmem
        · simp only [lenVals, List.filterMap_cons, hq]
          exact h2
    | len n =>
      simp only [hq] at h
      cases hrest : lenList fs with
      | none =>
        simp only [hrest] at h
        exact Option.noConfusion h
      | some r =>
        simp only [hrest, Option.some_inj] at h
        subst h
        obtain ⟨h1, h2⟩ := ih r hrest
        refine ⟨?_, ?_⟩
        · intro p hp
          rcases List.mem_cons.1 hp with rfl | hmem
          · rw [hq]; intro hc; cases hc
          · exact h1 p hmem
        · simp only [lenVals, List.filterMap_cons, hq]
          rw [h2]
          rfl

/-- A `Batch.len` result is a lower bound for every length-bearing
field's length. -/
theorem len_le_field (fs : Batch) (L : Nat) (hL : Batch.len fs = some L) :
    (∀ p ∈ fs, p.2.lenEntry ≠ .err) ∧
      (∀ p ∈ fs, ∀ n, p.2.lenEntry = .len n → L ≤ n) := by
  unfold Batch.len at hL
  cases hls : lenList fs with
  | none => rw [hls] at hL; cases hL
  | some ns =>
    rw [hls] at hL
    obtain ⟨h1, h2⟩ := lenList_some fs ns hls
    refine ⟨h1, ?_⟩
    intro p hp n hn
    have hmem : n ∈ ns := by
      rw [h2]
      exact List.mem_filterMap.2 ⟨p, hp, by rw [hn]⟩
    exact (minOf_spec ns L hL).2 n hmem

/-! ### Claim C8: `Batch.__len__` -/

/-- C8, counterexample to the claim as stated: the batch
`{a: array([1,2,3]), b: 5}` has a length-bearing top-level field `a`,
yet `len` raises (`Option.none`) instead of returning the minimum 3,
because the scalar field `b` raises `TypeError` inside the loop. -/
theorem batch_len_cex :
    (∃ p ∈ ([("a", BVal.arr [1, 2, 3]), ("b", BVal.scalar 5)] : Batch),
      ∃ n, p.2.lenEntry = LenRes.len n) ∧
    Batch.len [("a", BVal.arr [1, 2, 3]), ("b", BVal.scalar 5)] = Option.none := by
  constructor
  · exact ⟨("a", BVal.arr [1, 2, 3]), by simp, 3, rfl⟩
  · rfl

/-- C8 (amended): when every top-level field is length-bearing, an
empty nested batch, or an empty list (no field raises), `len` returns
the minimum over the length-bearing fields' lengths — and raises when
there is no length-bearing field at all; when some field raises
(scalars, `None`, nested batches whose own `len` raises), `len`
raises.  Empty nested batches and empty lists are ignored. -/
theorem batch_len_spec (fs : Batch) :
    ((∀ p ∈ fs, p.2.lenEntry ≠ .err) →
      Batch.len fs = minOf (lenVals fs) ∧
      (∀ m, Batch.len fs = some m → m ∈ lenVals fs ∧ ∀ x ∈ lenVals fs, m ≤ x) ∧
      (lenVals fs = [] → Batch.len fs = Option.none)) ∧
    ((∃ p ∈ fs, p.2.lenEntry = .err) → Batch.len fs = Option.none) ∧
    BVal.lenEntry (.sub []) = .skip ∧ BVal.lenEntry (.lst []) = .skip := by
  refine ⟨?_, ?_, rfl, rfl⟩
  · intro hok
    have h1 := lenList_no_err fs hok
    have hlen : Batch.len fs = minOf (lenVals fs) := by
      unfold Batch.len
      rw [h1]
    refine ⟨hlen, ?_, ?_⟩
    · intro m hm
      rw [hlen] at hm
      exact minOf_spec _ m hm
    · intro hnil
      rw [hlen, hnil]
      rfl
  · rintro ⟨p, hp, he⟩
    unfold Batch.len
    rw [lenList_err fs p hp he]

/-- C8 witness: a concrete batch with fields of lengths 3 and 2. -/
theorem batch_len_spec_witness :
    Batch.len [("a", BVal.arr [1, 2, 3]), ("b", BVal.lst [4, 5])] = some 2 := by
  have h :=
    (batch_len_spec [("a", BVal.arr [1, 2, 3]), ("b", BVal.lst [4, 5])]).1 (by decide)
  rw [h.1]
  rfl

/-! ### Claim C4: element-wise arithmetic -/

/-- C4, counterexample to the claim as stated: two batches with the
same keys but different insertion orders.  `Batch.__iadd__` pairs keys
with values positionally, so `(a + b).x = a.x + b.y`, not
`a.x + b.x`: here `(a + b).x = array([101])` while
`a.x + b.x = array([1001])`. -/
theorem batch_add_cex :
    List.Perm
      (([("x", BVal.arr [1]), ("y", BVal.arr [10])] : Batch).map Prod.fst)
      (([("y", BVal.arr [100]), ("x", BVal.arr [1000])] : Batch).map Prod.fst) ∧
    Batch.addB [("x", BVal.arr [1]), ("y", BVal.arr [10])]
        [("y", BVal.arr [100]), ("x", BVal.arr [1000])] =
      some [("x", BVal.arr [101]), ("y", BVal.arr [1010])] ∧
    lookupV "x" [("x", BVal.arr [101]), ("y", BVal.arr [1010])] = some (BVal.arr [101]) ∧
    iaddField (BVal.arr [1]) (BVal.arr [1000]) = some (BVal.arr [1001]) ∧
    (BVal.arr [101] : BVal) ≠ BVal.arr [1001] := by
  refine ⟨by decide, rfl, rfl, rfl, ?_⟩
  intro h
  injection h with h2
  exact absurd h2 (by decide)

/-- C4 (amended): addition of two batches is positional — the k-th
key of the left operand is paired with the k-th value of the right
operand; when both operands list their keys in the same order this is
exactly key-wise addition, `(a + b).k = a.k + b.k`.  Adding a scalar
adds it to every field (with `None` fields kept as `None`, the
behaviour `addScalarField` gives them). -/
theorem batch_add_spec :
    (∀ (a b res : Batch),
      a.map Prod.fst = b.map Prod.fst →
      Batch.addB a b = some res →
      res.map Prod.fst = a.map Prod.fst ∧
      ∀ k : String,
        lookupV k res =
          (lookupV k a).bind (fun r => (lookupV k b).bind (fun v => iaddField r v))) ∧
    (∀ (a : Batch) (c : Int) (k : String),
      lookupV k (Batch.addScalar a c) = (lookupV k a).map (fun r => addScalarField r c)) := by
  constructor
  · intro a
    induction a with
    | nil =>
      intro b res hkeys hadd
      have hb : b = [] := by
        cases b with
        | nil => rfl
        | cons q bs => simp at hkeys
      subst hb
      simp only [Batch.addB, List.map_nil, iaddBatch, Option.some_inj] at hadd
      subst hadd
      exact ⟨rfl, fun k => rfl⟩
    | cons p a2 ih =>
      intro b res hkeys hadd
      cases b with
      | nil => simp at hkeys
      | cons q b2 =>
        obtain ⟨k0, r0⟩ := p
        obtain ⟨k1, v0⟩ := q
        simp only [List.map_cons, List.cons.injEq] at hkeys
        obtain ⟨hk01, hkeys2⟩ := hkeys
        subst hk01
        simp only [Batch.addB, List.map_cons, iaddBatch] at hadd
        cases hf : iaddField r0 v0 with
        | none => rw [hf] at hadd; exact Option.noConfusion hadd
        | some w =>
          rw [hf] at hadd
          cases hrest : iaddBatch a2 (b2.map Prod.snd) with
          | none => rw [hrest] at hadd; exact Option.noConfusion hadd
          | some rest =>
            rw [hrest] at hadd
            simp only [Option.some_inj] at hadd
            subst hadd
            obtain ⟨ihkeys, ihlook⟩ := ih b2 rest hkeys2 hrest
            refine ⟨by simp [ihkeys], ?_⟩
            intro k
            by_cases hk : k0 = k
            · subst hk
              simp [lookupV, List.find?, hf]
            · have hne : (k0 == k) = false := by
                simp [hk]
              simp only [lookupV, List.find?, hne] at ihlook ⊢
              exact ihlook k
  · intro a c
    induction a with
    | nil => intro k; rfl
    | cons p a2 ih =>
      intro k
      obtain ⟨k0, v0⟩ := p
      by_cases hk : k0 = k
      · subst hk
        simp [Batch.addScalar, addScalarBatch, lookupV, List.find?]
      · have hne : (k0 == k) = false := by
          simp [hk]
        simp only [Batch.addScalar, addScalarBatch, lookupV, List.find?, hne] at ih ⊢
        exact ih k

/-- C4 witness: two concrete one-field batches with equal key order. -/
theorem batch_add_spec_witness :
    lookupV "u" [("u", BVal.arr [4, 6])] =
      (lookupV "u" [("u", BVal.arr [1, 2])]).bind
        (fun r => (lookupV "u" [("u", BVal.arr [3, 4])]).bind (fun v => iaddField r v)) :=
  (batch_add_spec.1 [("u", BVal.arr [1, 2])] [("u", BVal.arr [3, 4])]
    [("u", BVal.arr [4, 6])] rfl rfl).2 "u"

/-! ### Claim C6: `Batch.stack` vs the list-stacking constructor -/

/-- Specification-side description of stacking (claim C6): per key of
the first batch, in order, the column of that key's values across all
the batches is stacked by `stackVal` (arrays along a new leading
axis, nested batches recursively, numbers into a list). -/
def specStack (ks : List String) (bs : List Batch) : Option Batch :=
  match ks with
  | [] => some []
  | k :: ks2 =>
    match stackVal (bs.filterMap (lookupV k)), specStack ks2 bs with
    | some v, some rest => some ((k, v) :: rest)
    | _, _ => Option.none

theorem specStack_congr (ks : List String) (bs bs2 : List Batch)
    (h : ∀ k ∈ ks, bs.filterMap (lookupV k) = bs2.filterMap (lookupV k)) :
    specStack ks bs = specStack ks bs2 := by
  induction ks with
  | nil => rfl
  | cons k ks2 ih =>
    simp only [specStack]
    rw [h k (List.mem_cons_self k ks2), ih (fun k2 hk2 => h k2 (List.mem_cons_of_mem k hk2))]

theorem stackGo_eq_specStack :
    ∀ (ks : List String) (bs : List Batch),
      (∀ b ∈ bs, b.map Prod.fst = ks) → ks.Nodup →
      stackGo ks (bs.map (fun b => b.map Prod.snd)) = specStack ks bs := by
  intro ks
  induction ks with
  | nil =>
    intro bs _ _
    simp only [stackGo, specStack]
  | cons k ks2 ih =>
    intro bs hkeys hnd
    have hshape : ∀ b ∈ bs, ∃ v t, b = (k, v) :: t ∧ t.map Prod.fst = ks2 := by
      intro b hb
      have hk := hkeys b hb
      cases b with
      | nil => simp at hk
      | cons p t =>
        obtain ⟨k0, v⟩ := p
        simp only [List.map_cons, List.cons.injEq] at hk
        exact ⟨v, t, by rw [hk.1], hk.2⟩
    have hany : ((bs.map (fun b => b.map Prod.snd)).any List.isEmpty) = false := by
      simp only [List.any_eq_false, List.mem_map]
      rintro x ⟨b, hb, rfl⟩
      obtain ⟨v, t, rfl, _⟩ := hshape b hb
      simp
    have hheads :
        (bs.map (fun b => b.map Prod.snd)).filterMap List.head? =
          bs.filterMap (lookupV k) := by
      rw [List.filterMap_map]
      apply List.filterMap_congr
      intro b hb
      obtain ⟨v, t, rfl, _⟩ := hshape b hb
      simp [lookupV, List.find?]
    have htails :
        (bs.map (fun b => b.map Prod.snd)).map List.tail =
          (bs.map List.tail).map (fun b => b.map Prod.snd) := by
      simp only [List.map_map]
      apply List.map_congr_left
      intro b hb
      obtain ⟨v, t, rfl, _⟩ := hshape b hb
      rfl
    have hkeys2 : ∀ t ∈ bs.map List.tail, t.map Prod.fst = ks2 := by
      intro t ht
      obtain ⟨b, hb, rfl⟩ := List.mem_map.1 ht
      obtain ⟨v, t2, rfl, h2⟩ := hshape b hb
      exact h2
    have hnd2 : ks2.Nodup := (List.nodup_cons.1 hnd).2
    have hknot : k ∉ ks2 := (List.nodup_cons.1 hnd).1
    have hcongr : specStack ks2 (bs.map List.tail) = specStack ks2 bs := by
      apply specStack_congr
      intro k2 hk2
      rw [List.filterMap_map]
      apply List.filterMap_congr
      intro b hb
      obtain ⟨v, t, rfl, _⟩ := hshape b hb
      have hne : (k == k2) = false := by
        simp only [beq_eq_false_iff_ne, ne_eq]
        intro hc
        exact hknot (hc ▸ hk2)
      simp [lookupV, List.find?, hne]
    simp only [stackGo, hany, Bool.false_eq_true, if_false, hheads, htails,
      ih (bs.map List.tail) hkeys2 hnd2, hcongr]
    rfl

/-- C6: `Batch.stack(batches)` is the constructor's list-stacking
path, `cls(batches)` — and on batches sharing one key order that path
stacks key-wise: per key of the first batch, the column of values is
stacked (arrays into a 2-D array, numbers into a list, nested batches
recursively). -/
theorem stack_eq_constructor :
    (∀ bs : List Batch, Batch.stackB bs = batchOfList bs) ∧
    (∀ (b0 : Batch) (rest : List Batch),
      (∀ b ∈ b0 :: rest, b.map Prod.fst = b0.map Prod.fst) →
      (b0.map Prod.fst).Nodup →
      batchOfList (b0 :: rest) = specStack (b0.map Prod.fst) (b0 :: rest)) := by
  constructor
  · intro bs
    rfl
  · intro b0 rest hkeys hnd
    simp only [batchOfList]
    exact stackGo_eq_specStack (b0.map Prod.fst) (b0 :: rest) hkeys hnd

/-- C6 witness: stacking two one-field batches of scalars. -/
theorem stack_eq_constructor_witness :
    batchOfList [[("a", BVal.scalar 1)], [("a", BVal.scalar 2)]] =
      specStack ["a"] [[("a", BVal.scalar 1)], [("a", BVal.scalar 2)]] := by
  have h := stack_eq_constructor.2 [("a", BVal.scalar 1)] [[("a", BVal.scalar 2)]]
    (by decide) (by decide)
  exact h

/-! ### Claim C5: `Batch.__getitem__` bounds and empty fields -/

theorem intInBounds_mono (L L2 : Nat) (i : Int) (hle : L ≤ L2)
    (h : intInBounds L i = true) : intInBounds L2 i = true := by
  simp only [intInBounds, Bool.and_eq_true, decide_eq_true_eq] at h ⊢
  omega

theorem validBounds_mono (L L2 : Nat) (idx : PyIndex) (hle : L ≤ L2)
    (h : validBounds L idx = some true) : validBounds L2 idx = some true := by
  cases idx with
  | int i =>
    simp only [validBounds, Option.some_inj] at h ⊢
    exact intInBounds_mono L L2 i hle h
  | list is =>
    simp only [validBounds] at h ⊢
    cases hmn : listMinI is with
    | none =>
      simp only [hmn] at h
      exact Option.noConfusion h
    | some mn =>
      cases hmx : listMaxI is with
      | none =>
        simp only [hmn, hmx] at h
        exact Option.noConfusion h
      | some mx =>
        simp only [hmn, hmx, Option.some_inj, Bool.and_eq_true] at h ⊢
        exact ⟨intInBounds_mono _ _ _ hle h.1, intInBounds_mono _ _ _ hle h.2⟩
  | slice st sp =>
    simp only [validBounds, Option.some_inj, Bool.and_eq_true] at h ⊢
    refine ⟨?_, ?_⟩
    · cases st with
      | none => rfl
      | some s2 => exact intInBounds_mono _ _ _ hle h.1
    · cases sp with
      | none => rfl
      | some p2 => exact intInBounds_mono _ _ _ hle h.2

theorem validBounds_none (L L2 : Nat) (idx : PyIndex)
    (h : validBounds L idx = Option.none) : validBounds L2 idx = Option.none := by
  cases idx with
  | int i => simp [validBounds] at h
  | list is =>
    simp only [validBounds] at h ⊢
    cases hmn : listMinI is with
    | none => simp only [hmn]
    | some mn =>
      cases hmx : listMaxI is with
      | none => simp only [hmn, hmx]
      | some mx =>
        simp only [hmn, hmx] at h
        exact Option.noConfusion h
  | slice st sp => simp [validBounds] at h

/-- An index that is out of bounds for some length-bearing field is
out of bounds for the batch length (the minimum), so
`Batch.__getitem__` raises `IndexError` up front. -/
theorem getItem_oob (fs : Batch) (idx : PyIndex) (L : Nat) (hL : Batch.len fs = some L)
    (k : String) (v : BVal) (lv : Nat) (hmem : (k, v) ∈ fs) (hlen : v.lenEntry = .len lv)
    (hoob : validBounds lv idx = some false) : getItem fs idx = .error .indexError := by
  have hle : L ≤ lv := (len_le_field fs L hL).2 (k, v) hmem lv hlen
  unfold getItem
  simp only [hL]
  cases hvb : validBounds L idx with
  | none =>
    have h2 := validBounds_none L lv idx hvb
    rw [h2] at hoob
    exact Option.noConfusion hoob
  | some b =>
    cases b with
    | false => simp only [hvb]
    | true =>
      have h2 := validBounds_mono L lv idx hle hvb
      rw [h2] at hoob
      exact absurd (Option.some_inj.1 hoob) (by decide)

theorem getItemGo_empty_pass (idx : PyIndex) :
    ∀ (fs res : Batch), getItemGoRec idx fs = .ok res →
      ∀ k : String, ((k, BVal.sub []) ∈ fs → (k, BVal.sub []) ∈ res) ∧
        ((k, BVal.lst []) ∈ fs → (k, BVal.lst []) ∈ res) := by
  intro fs
  induction fs with
  | nil =>
    intro res h k
    exact ⟨fun hc => absurd hc (List.not_mem_nil _),
      fun hc => absurd hc (List.not_mem_nil _)⟩
  | cons p fs2 ih =>
    intro res h k
    obtain ⟨k0, v⟩ := p
    simp only [getItemGoRec] at h
    cases hf : getFieldRec idx v with
    | error e =>
      simp only [hf] at h
      exact Except.noConfusion h
    | ok r =>
      simp only [hf] at h
      cases hrest : getItemGoRec idx fs2 with
      | error e =>
        simp only [hrest] at h
        exact Except.noConfusion h
      | ok rest =>
        simp only [hrest] at h
        have htail := ih rest hrest k
        cases r with
        | none =>
          injection h with h2
          subst h2
          constructor
          · intro hmem
            rcases List.mem_cons.1 hmem with heq | hmem2
            · have hv : v = BVal.sub [] := congrArg Prod.snd heq.symm
              subst hv
              have he2 : getFieldRec idx (BVal.sub []) = .ok (some (BVal.sub [])) := rfl
              rw [he2] at hf
              injection hf with h3
              exact Option.noConfusion h3
            · exact htail.1 hmem2
          · intro hmem
            rcases List.mem_cons.1 hmem with heq | hmem2
            · have hv : v = BVal.lst [] := congrArg Prod.snd heq.symm
              subst hv
              have he2 : getFieldRec idx (BVal.lst []) = .ok (some (BVal.lst [])) := rfl
              rw [he2] at hf
              injection hf with h3
              exact Option.noConfusion h3
            · exact htail.2 hmem2
        | some w =>
          injection h with h2
          subst h2
          constructor
          · intro hmem
            rcases List.mem_cons.1 hmem with heq | hmem2
            · have hk0 : k0 = k := congrArg Prod.fst heq.symm
              have hv : v = BVal.sub [] := congrArg Prod.snd heq.symm
              subst hk0
              subst hv
              have he2 : getFieldRec idx (BVal.sub []) = .ok (some (BVal.sub [])) := rfl
              rw [he2] at hf
              injection hf with h3
              injection h3 with h4
              rw [← h4]
              exact List.mem_cons_self _ _
            · exact List.mem_cons_of_mem _ (htail.1 hmem2)
          · intro hmem
            rcases List.mem_cons.1 hmem with heq | hmem2
            · have hk0 : k0 = k := congrArg Prod.fst heq.symm
              have hv : v = BVal.lst [] := congrArg Prod.snd heq.symm
              subst hk0
              subst hv
              have he2 : getFieldRec idx (BVal.lst []) = .ok (some (BVal.lst [])) := rfl
              rw [he2] at hf
              injection hf with h3
              injection h3 with h4
              rw [← h4]
              exact List.mem_cons_self _ _
            · exact List.mem_cons_of_mem _ (htail.2 hmem2)

/-- C5, counterexample to the claim as stated: in the batch
`{a: array([1,2]), c: 7}` the index 5 exceeds the length-bearing
field `a`, yet `get_item` raises `TypeError` (from `len(self)` on the
scalar field `c`), not the claimed `IndexError`. -/
theorem getItem_cex :
    (("a", BVal.arr [1, 2]) ∈ ([("a", BVal.arr [1, 2]), ("c", BVal.scalar 7)] : Batch)) ∧
    (BVal.arr [1, 2]).lenEntry = LenRes.len 2 ∧
    validBounds 2 (.int 5) = some false ∧
    getItem [("a", BVal.arr [1, 2]), ("c", BVal.scalar 7)] (.int 5) =
      .error .typeError ∧
    BErr.typeError ≠ BErr.indexError := by
  refine ⟨List.mem_cons_self _ _, rfl, rfl, rfl, ?_⟩
  intro h
  cases h

/-- C5 (amended): provided `len(self)` itself succeeds (every
top-level field is length-bearing or an ignored empty), an index that
exceeds the length of any length-bearing field makes
`Batch.__getitem__` raise `IndexError` rather than return; if the
batch has a field with no usable length, the up-front `len(self)`
raises `TypeError` instead.  Whenever `get_item` does return a batch,
zero-size nested batches and empty lists are passed through into the
result as empty rather than indexed. -/
theorem getItem_spec (fs : Batch) (idx : PyIndex) :
    (∀ L : Nat, Batch.len fs = some L →
      ∀ (k : String) (v : BVal) (lv : Nat),
        (k, v) ∈ fs → v.lenEntry = .len lv → validBounds lv idx = some false →
        getItem fs idx = .error .indexError) ∧
    ((∃ p ∈ fs, p.2.lenEntry = .err) → getItem fs idx = .error .typeError) ∧
    (∀ res : Batch, getItem fs idx = .ok res →
      ∀ k : String,
        ((k, BVal.sub []) ∈ fs → (k, BVal.sub []) ∈ res) ∧
        ((k, BVal.lst []) ∈ fs → (k, BVal.lst []) ∈ res)) := by
  refine ⟨?_, ?_, ?_⟩
  · intro L hL k v lv hmem hlen hoob
    exact getItem_oob fs idx L hL k v lv hmem hlen hoob
  · rintro ⟨p, hp, he⟩
    have hnone : Batch.len fs = Option.none := by
      unfold Batch.len
      simp only [lenList_err fs p hp he]
    unfold getItem
    simp only [hnone]
  · intro res h k
    unfold getItem at h
    cases hls : Batch.len fs with
    | none =>
      simp only [hls] at h
      exact Except.noConfusion h
    | some L =>
      simp only [hls] at h
      cases hvb : validBounds L idx with
      | none =>
        simp only [hvb] at h
        exact Except.noConfusion h
      | some b =>
        simp only [hvb] at h
        cases b with
        | false => exact Except.noConfusion h
        | true => exact getItemGo_empty_pass idx fs res h k

/-- C5 witness: out-of-bounds integer index 5 against a batch whose
only field has length 2. -/
theorem getItem_spec_witness :
    getItem [("a", BVal.arr [1, 2])] (.int 5) = .error .indexError :=
  (getItem_spec [("a", BVal.arr [1, 2])] (.int 5)).1 2 rfl "a" (BVal.arr [1, 2]) 2
    (List.mem_cons_self _ _) rfl rfl

/-! ### Claim C7: `Batch.split` -/

theorem foldl_max_facts [LinearOrder α] (xs : List α) :
    ∀ a : α, (a ≤ xs.foldl max a) ∧ (∀ x ∈ xs, x ≤ xs.foldl max a) ∧
      (xs.foldl max a = a ∨ xs.foldl max a ∈ xs) := by
  induction xs with
  | nil => intro a; simp
  | cons y ys ih =>
    intro a
    have h := ih (max a y)
    refine ⟨?_, ?_, ?_⟩
    · exact le_trans (le_max_left a y) h.1
    · intro x hx
      rcases List.mem_cons.1 hx with rfl | hx2
      · exact le_trans (le_max_right a x) h.1
      · exact h.2.1 x hx2
    · rcases h.2.2 with heq | hmem
      · rw [List.foldl_cons, heq]
        rcases max_choice a y with h1 | h1
        · exact Or.inl h1
        · exact Or.inr (by rw [h1]; exact List.mem_cons_self y ys)
      · exact Or.inr (List.mem_cons_of_mem y hmem)

/-- For a non-empty list of in-bounds non-negative indices, the
`_valid_bounds` check on the list succeeds. -/
theorem validBounds_list_true (L : Nat) (ch : List Int) (hne : ch ≠ [])
    (hb : ∀ i ∈ ch, 0 ≤ i ∧ i < (L : Int)) :
    validBounds L (.list ch) = some true := by
  cases ch with
  | nil => exact absurd rfl hne
  | cons c cs =>
    have hmn := foldl_min_facts cs c
    have hmx := foldl_max_facts cs c
    have hminmem : cs.foldl min c ∈ c :: cs := by
      rcases hmn.2.2 with heq | hm
      · rw [heq]; exact List.mem_cons_self _ _
      · exact List.mem_cons_of_mem _ hm
    have hmaxmem : cs.foldl max c ∈ c :: cs := by
      rcases hmx.2.2 with heq | hm
      · rw [heq]; exact List.mem_cons_self _ _
      · exact List.mem_cons_of_mem _ hm
    have h1 := hb _ hminmem
    have h2 := hb _ hmaxmem
    simp only [validBounds, listMinI, listMaxI, Option.some_inj, intInBounds,
      Bool.and_eq_true, decide_eq_true_eq]
    constructor
    · constructor <;> omega
    · constructor <;> omega

theorem normAll_ok (L : Nat) :
    ∀ ch : List Int, (∀ i ∈ ch, 0 ≤ i ∧ i < (L : Int)) →
      ∃ js, normAll L ch = some js ∧ js.length = ch.length := by
  intro ch
  induction ch with
  | nil => intro _; exact ⟨[], rfl, rfl⟩
  | cons c cs ih =>
    intro hb
    obtain ⟨js, hjs, hlen⟩ := ih (fun i hi => hb i (List.mem_cons_of_mem c hi))
    have hc := hb c (List.mem_cons_self c cs)
    have hn : normIdx L c = some c.toNat := by
      simp only [normIdx]
      rw [if_neg (show ¬c < 0 by omega)]
      rw [if_pos hc]
    refine ⟨c.toNat :: js, ?_, by simp [hlen]⟩
    simp only [normAll, hn, hjs]

theorem batch_size_ne_zero (p : String × BVal) (fs : List (String × BVal)) :
    Batch.size (p :: fs) ≠ 0 := by
  simp [Batch.size]

theorem batch_size_zero (fs : Batch) (h : Batch.size fs = 0) : fs = [] := by
  cases fs with
  | nil => rfl
  | cons p fs2 => exact absurd h (batch_size_ne_zero p fs2)

/-- A field skipped by `Batch.__len__` is a zero-size nested batch or
an empty list. -/
theorem lenEntry_skip_shape (v : BVal) (h : v.lenEntry = .skip) :
    v = BVal.sub [] ∨ v = BVal.lst [] := by
  cases v with
  | arr xs => simp [BVal.lenEntry] at h
  | arr2 xss => simp [BVal.lenEntry] at h
  | scalar x => simp [BVal.lenEntry] at h
  | none => simp [BVal.lenEntry] at h
  | lst xs =>
    cases xs with
    | nil => exact Or.inr rfl
    | cons y ys => simp [BVal.lenEntry] at h
  | sub gs =>
    left
    simp only [BVal.lenEntry] at h
    by_cases hz : Batch.size gs = 0
    · rw [batch_size_zero gs hz]
    · rw [if_neg hz] at h
      cases hls : lenList gs with
      | none =>
        simp only [hls] at h
        exact LenRes.noConfusion h
      | some ns =>
        simp only [hls] at h
        cases hmo : minOf ns with
        | none =>
          simp only [hmo] at h
          exact LenRes.noConfusion h
        | some m =>
          simp only [hmo] at h
          exact LenRes.noConfusion h

/-- Joining the chunks `xs[j*s : j*s+s]` for `j < C` recovers `xs`
when `xs` fits in `C` chunks. -/
theorem chunksJoin [Inhabited α] :
    ∀ (C : Nat) (xs : List α) (s : Nat), 0 < s → xs.length ≤ C * s →
      ((List.range C).map (fun j => (xs.drop (j * s)).take s)).flatten = xs := by
  intro C
  induction C with
  | zero =>
    intro xs s hs hlen
    simp only [Nat.zero_mul, Nat.le_zero, List.length_eq_zero] at hlen
    subst hlen
    rfl
  | succ C ih =>
    intro xs s hs hlen
    rw [List.range_succ_eq_map]
    simp only [List.map_cons, List.flatten_cons, List.map_map, Nat.zero_mul, List.drop_zero]
    have hcomp :
        ((fun j => (xs.drop (j * s)).take s) ∘ Nat.succ) =
          (fun j => ((xs.drop s).drop (j * s)).take s) := by
      funext j
      simp only [Function.comp]
      rw [List.drop_drop]
      have harg : s + j * s = j.succ * s := by
        rw [Nat.succ_mul]
        omega
      rw [harg]
    have hlen2 : (xs.drop s).length ≤ C * s := by
      rw [List.length_drop]
      have hmul : (C + 1) * s = C * s + s := by ring
      omega
    rw [hcomp, ih (xs.drop s) s hs hlen2]
    exact List.take_append_drop s xs

/-- Fancy indexing with a non-empty array of in-bounds non-negative
indices succeeds on every length-bearing field without (non-empty)
Python-list content, and on every batch of such fields; the results
keep the keys and have length `ch.length` in every length-bearing
position.  Strong induction on the size of the value / field list. -/
theorem chunk_ok (N : Nat) :
    (∀ v : BVal, sizeOf v ≤ N → ∀ lv : Nat, noListFields v = true →
      v.lenEntry = .len lv → ∀ ch : List Int, ch ≠ [] →
      (∀ i ∈ ch, 0 ≤ i ∧ i < (lv : Int)) →
      ∃ w, getFieldRec (.list ch) v = .ok (some w) ∧ w.lenEntry = .len ch.length) ∧
    (∀ fs : Batch, sizeOf fs ≤ N → noListFieldsB fs = true →
      (∀ p ∈ fs, p.2.lenEntry ≠ .err) → ∀ ch : List Int, ch ≠ [] →
      (∀ p ∈ fs, ∀ n, p.2.lenEntry = .len n → ∀ i ∈ ch, 0 ≤ i ∧ i < (n : Int)) →
      ∃ res, getItemGoRec (.list ch) fs = .ok res ∧
        res.map Prod.fst = fs.map Prod.fst ∧
        lenList res = some ((lenVals fs).map (fun _ => ch.length))) := by
  induction N using Nat.strong_induction_on with
  | _ N ih =>
    constructor
    · intro v hsz lv hnl hlen ch hne hb
      cases v with
      | arr xs =>
        have hlv : lv = xs.length := by
          simp only [BVal.lenEntry] at hlen
          exact (LenRes.len.inj hlen).symm
        subst hlv
        obtain ⟨js, hjs, hjlen⟩ := normAll_ok xs.length ch hb
        refine ⟨.arr (js.map (fun j => xs.getD j 0)), ?_, ?_⟩
        · simp only [getFieldRec, validBounds_list_true xs.length ch hne hb, valueOfArr, hjs]
        · simp only [BVal.lenEntry, List.length_map, hjlen]
      | arr2 xss =>
        have hlv : lv = xss.length := by
          simp only [BVal.lenEntry] at hlen
          exact (LenRes.len.inj hlen).symm
        subst hlv
        obtain ⟨js, hjs, hjlen⟩ := normAll_ok xss.length ch hb
        refine ⟨.arr2 (js.map (fun j => xss.getD j [])), ?_, ?_⟩
        · simp only [getFieldRec, validBounds_list_true xss.length ch hne hb, valueOfArr2, hjs]
        · simp only [BVal.lenEntry, List.length_map, hjlen]
      | scalar x => simp [BVal.lenEntry] at hlen
      | none => simp [BVal.lenEntry] at hlen
      | lst xs =>
        cases xs with
        | nil => simp [BVal.lenEntry] at hlen
        | cons y ys => simp [noListFields] at hnl
      | sub gs =>
        have hgs : Batch.size gs ≠ 0 ∧ ∃ ns, lenList gs = some ns ∧ minOf ns = some lv := by
          simp only [BVal.lenEntry] at hlen
          by_cases hz : Batch.size gs = 0
          · rw [if_pos hz] at hlen
            exact LenRes.noConfusion hlen
          · rw [if_neg hz] at hlen
            refine ⟨hz, ?_⟩
            cases hls : lenList gs with
            | none =>
              simp only [hls] at hlen
              exact LenRes.noConfusion hlen
            | some ns =>
              simp only [hls] at hlen
              cases hmo : minOf ns with
              | none =>
                simp only [hmo] at hlen
                exact LenRes.noConfusion hlen
              | some m =>
                simp only [hmo] at hlen
                exact ⟨ns, rfl, by rw [hmo, LenRes.len.inj hlen]⟩
        obtain ⟨hz, ns, hls, hmo⟩ := hgs
        obtain ⟨hnoerr, hnsvals⟩ := lenList_some gs ns hls
        have hblen : Batch.len gs = some lv := by
          unfold Batch.len
          simp only [hls, hmo]
        have hbgs : ∀ p ∈ gs, ∀ n, p.2.lenEntry = .len n →
            ∀ i ∈ ch, 0 ≤ i ∧ i < (n : Int) := by
          intro p hp n hn i hi
          have hnin : n ∈ ns := by
            rw [hnsvals]
            exact List.mem_filterMap.2 ⟨p, hp, by rw [hn]⟩
          have hle := (minOf_spec ns lv hmo).2 n hnin
          have hbi := hb i hi
          refine ⟨hbi.1, lt_of_lt_of_le hbi.2 (by exact_mod_cast hle)⟩
        have hszgs : sizeOf gs < N := by
          have h2 : sizeOf gs < sizeOf (BVal.sub gs) := by
            simp
          omega
        have hnl2 : noListFieldsB gs = true := by
          simpa [noListFields] using hnl
        obtain ⟨res, hres, hkeys, hlr⟩ :=
          (ih (sizeOf gs) hszgs).2 gs le_rfl hnl2 hnoerr ch hne hbgs
        have hvb := validBounds_list_true lv ch hne hb
        obtain ⟨g, gs2, rfl⟩ : ∃ g gs2, gs = g :: gs2 := by
          cases gs with
          | nil => exact absurd rfl hz
          | cons g gs2 => exact ⟨g, gs2, rfl⟩
        refine ⟨.sub res, ?_, ?_⟩
        · simp only [getFieldRec, hblen, hvb, hres]
        · have hresne : ∃ r0 res2, res = r0 :: res2 := by
            cases res with
            | nil => simp at hkeys
            | cons r0 res2 => exact ⟨r0, res2, rfl⟩
          obtain ⟨r0, res2, rfl⟩ := hresne
          have hnsne : ns ≠ [] := by
            intro hc
            rw [hc] at hmo
            exact Option.noConfusion hmo
          have hlvne : lenVals (g :: gs2) ≠ [] := by
            rw [← hnsvals]
            exact hnsne
          have hconst :
              minOf ((lenVals (g :: gs2)).map (fun _ => ch.length)) = some ch.length := by
            apply minOf_const
            · simpa using hlvne
            · intro x hx
              obtain ⟨y, _, rfl⟩ := List.mem_map.1 hx
              rfl
          simp only [BVal.lenEntry, if_neg (batch_size_ne_zero r0 res2), hlr, hconst]
    · intro fs hsz hnl hok ch hne hb
      cases fs with
      | nil => exact ⟨[], rfl, rfl, rfl⟩
      | cons p fs2 =>
        obtain ⟨k, v⟩ := p
        have hand : noListFields v = true ∧ noListFieldsB fs2 = true := by
          simpa [noListFieldsB, Bool.and_eq_true] using hnl
        have hszv : sizeOf v < N := by
          have h2 : sizeOf v < sizeOf ((k, v) :: fs2) := by
            simp
            omega
          omega
        have hszf : sizeOf fs2 < N := by
          have h2 : sizeOf fs2 < sizeOf ((k, v) :: fs2) := by
            simp
          omega
        have hok2 : ∀ p ∈ fs2, p.2.lenEntry ≠ .err :=
          fun q hq => hok q (List.mem_cons_of_mem _ hq)
        have hb2 : ∀ p ∈ fs2, ∀ n, p.2.lenEntry = .len n →
            ∀ i ∈ ch, 0 ≤ i ∧ i < (n : Int) :=
          fun q hq => hb q (List.mem_cons_of_mem _ hq)
        obtain ⟨res2, hres2, hkeys2, hlr2⟩ :=
          (ih (sizeOf fs2) hszf).2 fs2 le_rfl hand.2 hok2 ch hne hb2
        cases he : v.lenEntry with
        | err => exact absurd he (hok (k, v) (List.mem_cons_self _ _))
        | skip =>
          rcases lenEntry_skip_shape v he with rfl | rfl
          · refine ⟨(k, BVal.sub []) :: res2, ?_, ?_, ?_⟩
            · simp only [getItemGoRec,
                show getFieldRec (.list ch) (BVal.sub []) = .ok (some (BVal.sub [])) from rfl,
                hres2]
            · simp [hkeys2]
            · simp only [lenList, lenVals, List.filterMap_cons,
                show (BVal.sub []).lenEntry = LenRes.skip from rfl, hlr2]
          · refine ⟨(k, BVal.lst []) :: res2, ?_, ?_, ?_⟩
            · simp only [getItemGoRec,
                show getFieldRec (.list ch) (BVal.lst []) = .ok (some (BVal.lst [])) from rfl,
                hres2]
            · simp [hkeys2]
            · simp only [lenList, lenVals, List.filterMap_cons,
                show (BVal.lst []).lenEntry = LenRes.skip from rfl, hlr2]
        | len n =>
          obtain ⟨w, hw, hwlen⟩ :=
            (ih (sizeOf v) hszv).1 v le_rfl n hand.1 he ch hne
              (hb (k, v) (List.mem_cons_self _ _) n he)
          refine ⟨(k, w) :: res2, ?_, ?_, ?_⟩
          · simp only [getItemGoRec, hw, hres2]
          · simp [hkeys2]
          · simp only [lenList, lenVals, List.filterMap_cons, he, hwlen, hlr2]
            rfl

theorem getItem_chunk (fs : Batch) (L : Nat) (hL : Batch.len fs = some L)
    (hnl : noListFieldsB fs = true) (ch : List Int) (hne : ch ≠ [])
    (hb : ∀ i ∈ ch, 0 ≤ i ∧ i < (L : Int)) :
    ∃ b, getItem fs (.list ch) = .ok b ∧ Batch.len b = some ch.length := by
  obtain ⟨hok, hbound⟩ := len_le_field fs L hL
  have hb2 : ∀ p ∈ fs, ∀ n, p.2.lenEntry = .len n → ∀ i ∈ ch, 0 ≤ i ∧ i < (n : Int) := by
    intro p hp n hn i hi
    have hle := hbound p hp n hn
    have hbi := hb i hi
    exact ⟨hbi.1, lt_of_lt_of_le hbi.2 (by exact_mod_cast hle)⟩
  obtain ⟨res, hres, hkeys, hlr⟩ := (chunk_ok (sizeOf fs)).2 fs le_rfl hnl hok ch hne hb2
  have hlv : lenList fs = some (lenVals fs) := lenList_no_err fs hok
  have hmo : minOf (lenVals fs) = some L := by
    unfold Batch.len at hL
    simp only [hlv] at hL
    exact hL
  have hne2 : lenVals fs ≠ [] := by
    intro hc
    rw [hc] at hmo
    exact Option.noConfusion hmo
  refine ⟨res, ?_, ?_⟩
  · unfold getItem
    simp only [hL, validBounds_list_true L ch hne hb, hres]
  · unfold Batch.len
    simp only [hlr]
    apply minOf_const
    · simpa using hne2
    · intro x hx
      obtain ⟨y, _, rfl⟩ := List.mem_map.1 hx
      rfl

theorem splitPieces_ok (fs : Batch) :
    ∀ chs : List (List Int),
      (∀ ch ∈ chs, ∃ b, getItem fs (.list ch) = .ok b ∧ Batch.len b = some ch.length) →
      ∃ pieces, splitPieces fs chs = some pieces ∧
        List.Forall₂
          (fun (ch : List Int) (b : Batch) =>
            Batch.len b = some ch.length ∧ getItem fs (.list ch) = .ok b)
          chs pieces := by
  intro chs
  induction chs with
  | nil => intro _; exact ⟨[], rfl, List.Forall₂.nil⟩
  | cons ch chs2 ih =>
    intro h
    obtain ⟨b, hb1, hb2⟩ := h ch (List.mem_cons_self _ _)
    obtain ⟨pieces2, hp, hf⟩ := ih (fun c hc => h c (List.mem_cons_of_mem _ hc))
    refine ⟨b :: pieces2, ?_, List.Forall₂.cons ⟨hb2, hb1⟩ hf⟩
    simp only [splitPieces, hb1, hp]

theorem ceil_mul_ge (L s : Nat) (hs : 0 < s) : L ≤ ((L + s - 1) / s) * s := by
  have hdm := Nat.div_add_mod (L + s - 1) s
  have hmlt : (L + s - 1) % s < s := Nat.mod_lt _ hs
  have hcomm : ((L + s - 1) / s) * s = s * ((L + s - 1) / s) := Nat.mul_comm _ _
  omega

theorem chunk_start_lt (L s j : Nat) (hs : 0 < s) (hj : j < (L + s - 1) / s) :
    j * s < L := by
  have h2 : (j + 1) * s ≤ L + s - 1 := (Nat.le_div_iff_mul_le hs).1 hj
  have hmul : (j + 1) * s = j * s + s := by ring
  omega

/-- C7, counterexample to the claim as stated: the batch
`{a: [10, 20, 30]}` (a Python-list field) has length 3, yet
`split(2, shuffle=False)` raises `TypeError` (indexing a Python list
with an index array) instead of yielding sub-batches. -/
theorem split_cex :
    Batch.len [("a", BVal.lst [10, 20, 30])] = some 3 ∧
    Batch.splitB [("a", BVal.lst [10, 20, 30])] 2 [0, 1, 2] = Option.none := by
  exact ⟨rfl, rfl⟩

/-- C7 (amended): for a batch of length `L` whose fields (recursively)
contain no non-empty Python lists (arrays and nested batches only;
a Python-list field makes the per-chunk array indexing raise
`TypeError`), and a positive `size`, `split` yields
`ceil(L / size)` sub-batches, the j-th being `self[indices[j*size :
(j+1)*size]]`; the chunks have at most `size` rows each, their
concatenation is exactly the supplied `indices` (the identity
permutation when `shuffle=False`, the drawn permutation when
`shuffle=True`), and each yielded sub-batch has the length of its
chunk.  Together the chunks of a permutation cover every row exactly
once. -/
theorem split_spec (fs : Batch) (s L : Nat) (indices : List Nat)
    (hs : 0 < s) (hL : Batch.len fs = some L) (hnl : noListFieldsB fs = true)
    (hlen : indices.length = L) (hperm : List.Perm indices (List.range L)) :
    ∃ pieces, Batch.splitB fs s indices = some pieces ∧
      pieces.length = (L + s - 1) / s ∧
      (splitChunks s L indices).flatten = indices.map Int.ofNat ∧
      (∀ ch ∈ splitChunks s L indices, ch.length ≤ s) ∧
      List.Forall₂
        (fun (ch : List Int) (b : Batch) =>
          Batch.len b = some ch.length ∧ getItem fs (.list ch) = .ok b)
        (splitChunks s L indices) pieces := by
  have hall : ∀ ch ∈ splitChunks s L indices,
      ∃ b, getItem fs (.list ch) = .ok b ∧ Batch.len b = some ch.length := by
    intro ch hch
    obtain ⟨j, hj, rfl⟩ := List.mem_map.1 hch
    have hjC : j < (L + s - 1) / s := List.mem_range.1 hj
    have hjs : j * s < L := chunk_start_lt L s j hs hjC
    apply getItem_chunk fs L hL hnl
    · intro hc
      have hlc := congrArg List.length hc
      simp only [List.length_map, List.length_take, List.length_drop, hlen,
        List.length_nil] at hlc
      omega
    · intro i hi
      obtain ⟨i0, hi0, rfl⟩ := List.mem_map.1 hi
      have hmem : i0 ∈ indices := List.drop_subset _ _ (List.take_subset _ _ hi0)
      have hrange : i0 ∈ List.range L := (List.Perm.mem_iff hperm).1 hmem
      have hi0L : i0 < L := List.mem_range.1 hrange
      constructor
      · exact Int.ofNat_nonneg i0
      · rw [Int.ofNat_eq_natCast]
        exact_mod_cast hi0L
  obtain ⟨pieces, hp, hforall⟩ := splitPieces_ok fs (splitChunks s L indices) hall
  refine ⟨pieces, ?_, ?_, ?_, ?_, hforall⟩
  · unfold Batch.splitB
    rw [if_neg (by omega)]
    simp only [hL]
    exact hp
  · have hle := List.Forall₂.length_eq hforall
    rw [← hle]
    simp [splitChunks]
  · have hc : splitChunks s L indices =
        (List.range ((L + s - 1) / s)).map
          (fun j => (((indices.map Int.ofNat).drop (j * s)).take s)) := by
      unfold splitChunks
      apply List.map_congr_left
      intro j _
      rw [List.map_take, List.map_drop]
    rw [hc]
    apply chunksJoin
    · exact hs
    · rw [List.length_map, hlen]
      exact ceil_mul_ge L s hs
  · intro ch hch
    obtain ⟨j, _, rfl⟩ := List.mem_map.1 hch
    simp only [List.length_map, List.length_take]
    exact min_le_left _ _

/-- C7 witness: an array-field batch of length 3 split into chunks of
2 with the identity permutation. -/
theorem split_spec_witness :
    ∃ pieces, Batch.splitB [("a", BVal.arr [10, 20, 30])] 2 [0, 1, 2] = some pieces ∧
      pieces.length = 2 := by
  obtain ⟨pieces, h1, h2, _⟩ :=
    split_spec [("a", BVal.arr [10, 20, 30])] 2 3 [0, 1, 2] (by decide) rfl rfl rfl
      (by decide)
  exact ⟨pieces, h1, h2⟩

/-! ### Iteration projections -/

theorem collectIter_stepCount (em : EnvModel) (pm : PolicyModel) (r e : Bool)
    (nEp : Option Nat) (st : LoopState) :
    (collectIter em pm r e nEp st).stepCount = st.stepCount + st.ready.length := by
  unfold collectIter
  cases nEp with
  | none => rfl
  | some n => cases r <;> simp only [reduceIte] <;> (split <;> (try split) <;> rfl)

theorem collectIter_numEps (em : EnvModel) (pm : PolicyModel) (r e : Bool)
    (nEp : Option Nat) (st : LoopState) :
    (collectIter em pm r e nEp st).numEps =
      st.numEps + ((List.range st.ready.length).filter (iterDoneAt em pm r e st)).length := by
  unfold collectIter
  cases nEp with
  | none => rfl
  | some n => cases r <;> simp only [reduceIte] <;> (split <;> (try split) <;> rfl)

theorem collectIter_epsBy (em : EnvModel) (pm : PolicyModel) (r e : Bool)
    (nEp : Option Nat) (st : LoopState) :
    (collectIter em pm r e nEp st).epsBy =
      st.epsBy ++
        ((List.range st.ready.length).filter (iterDoneAt em pm r e st)).map (iterEAt st) := by
  unfold collectIter
  cases nEp with
  | none => rfl
  | some n => cases r <;> simp only [reduceIte] <;> (split <;> (try split) <;> rfl)

theorem collectIter_buf (em : EnvModel) (pm : PolicyModel) (r e : Bool)
    (nEp : Option Nat) (st : LoopState) :
    (collectIter em pm r e nEp st).buf =
      st.buf ++ (List.range st.ready.length).map
        (fun j => ⟨iterEAt st j, iterOAt st j, iterActAt pm r e st j,
          iterObsNextAt em pm r e st j, iterDoneAt em pm r e st j⟩) := by
  unfold collectIter
  cases nEp with
  | none => rfl
  | some n => cases r <;> simp only [reduceIte] <;> (split <;> (try split) <;> rfl)

theorem collectIter_calls (em : EnvModel) (pm : PolicyModel) (r e : Bool)
    (nEp : Option Nat) (st : LoopState) :
    (collectIter em pm r e nEp st).calls =
      st.calls ++ (List.range st.ready.length).map
        (fun j => ⟨iterEAt st j, iterActEnvAt pm r e st j⟩) := by
  unfold collectIter
  cases nEp with
  | none => rfl
  | some n => cases r <;> simp only [reduceIte] <;> (split <;> (try split) <;> rfl)

theorem collectIter_none_ready (em : EnvModel) (pm : PolicyModel) (r e : Bool)
    (st : LoopState) :
    (collectIter em pm r e Option.none st).ready = st.ready := rfl

/-! ### Claim C10: collect without a prior reset -/

/-- C10: with a valid `n_step` or `n_episode` argument and
`reset_before_collect=False`, a collector whose pre-collect
observation or info is still `None` makes `collect` raise
`ValueError` before anything happens: no action is computed, no env is
stepped, and the returned collector state is exactly the input state
(buffer and statistics unchanged), for every environment/policy model
and every iteration budget. -/
theorem collect_requires_reset (em : EnvModel) (pm : PolicyModel) (c : CollectorState)
    (nStep nEpisode : Option Nat) (random explNoise : Bool) (fuel : Nat)
    (hnone : c.preObs = Option.none ∨ c.preInfo = Option.none)
    (hvalid : (∃ k, nStep = some k ∧ 0 < k ∧ nEpisode = Option.none) ∨
      (∃ n, nEpisode = some n ∧ 0 < n ∧ em.E ≤ n ∧ nStep = Option.none)) :
    Collector.collect em pm c nStep nEpisode random explNoise false fuel =
      some (.error .valueError, c) := by
  rcases hvalid with ⟨k, rfl, hk, rfl⟩ | ⟨n, rfl, hn, hEn, rfl⟩
  · simp only [Collector.collect]
    rw [if_neg (by omega)]
    unfold collectMain
    simp only [Bool.false_eq_true, if_false]
    rcases hnone with h | h
    · cases hI : c.preInfo <;> simp only [h, hI]
    · cases hO : c.preObs <;> simp only [h, hO]
  · simp only [Collector.collect]
    rw [if_neg (by omega), if_neg (by omega)]
    unfold collectMain
    simp only [Bool.false_eq_true, if_false]
    rcases hnone with h | h
    · cases hI : c.preInfo <;> simp only [h, hI]
    · cases hO : c.preObs <;> simp only [h, hO]

/-- C10 witness: a fresh (never reset) collector with `n_step=4`. -/
theorem collect_requires_reset_witness :
    Collector.collect emAll pmId ⟨Option.none, Option.none, Option.none, [], 0, 0⟩
      (some 4) Option.none false false false 9 =
      some (.error .valueError, ⟨Option.none, Option.none, Option.none, [], 0, 0⟩) :=
  collect_requires_reset emAll pmId ⟨Option.none, Option.none, Option.none, [], 0, 0⟩
    (some 4) Option.none false false 9 (Or.inl rfl) (Or.inl ⟨4, rfl, by decide, rfl⟩)

/-! ### Claim C3: `n_step` step count -/

theorem collectLoop_nstep (em : EnvModel) (pm : PolicyModel) (random explNoise : Bool)
    (k : Nat) (hE : 0 < em.E) :
    ∀ (fuel : Nat) (st : LoopState), st.ready = List.range em.E →
      em.E ∣ st.stepCount → st.stepCount < k → k ≤ st.stepCount + fuel →
      ∃ st2, collectLoop em pm random explNoise (some k) Option.none fuel st = some st2 ∧
        k ≤ st2.stepCount ∧ st2.stepCount < k + em.E ∧ em.E ∣ st2.stepCount := by
  intro fuel
  induction fuel with
  | zero =>
    intro st _ _ hlt hle
    omega
  | succ fuel ih =>
    intro st hready hdvd hlt hle
    have hstep2 : (collectIter em pm random explNoise Option.none st).stepCount =
        st.stepCount + em.E := by
      rw [collectIter_stepCount, hready, List.length_range]
    have hready2 : (collectIter em pm random explNoise Option.none st).ready =
        List.range em.E := by
      rw [collectIter_none_ready, hready]
    have hdvd2 : em.E ∣ (collectIter em pm random explNoise Option.none st).stepCount := by
      rw [hstep2]
      exact Nat.dvd_add hdvd dvd_rfl
    simp only [collectLoop]
    cases hbc : breakCond (some k) Option.none (collectIter em pm random explNoise
        Option.none st) with
    | true =>
      simp only [if_pos rfl]
      refine ⟨_, rfl, ?_, ?_, hdvd2⟩
      · have h6 := hbc
        simp only [breakCond, Bool.or_false, decide_eq_true_eq] at h6
        exact h6
      · rw [hstep2]
        omega
    | false =>
      simp only [Bool.false_eq_true, if_false]
      have hlt2 : (collectIter em pm random explNoise Option.none st).stepCount < k := by
        have h6 := hbc
        simp only [breakCond, Bool.or_false, decide_eq_false_iff_not] at h6
        omega
      exact ih _ hready2 hdvd2 hlt2 (by omega)

/-- C3: with `n_step = k > 0` and `E ≥ 1` envs, `collect` terminates
within `k` iterations, the collected step count is at least `k`
(every env steps in every iteration, so the count advances by `E`),
stays below `k + E`, and equals `k` exactly whenever `E` divides `k`. -/
theorem collect_nstep_count (em : EnvModel) (pm : PolicyModel) (c : CollectorState)
    (k : Nat) (random explNoise : Bool) (os infos : List Int)
    (hE : 0 < em.E) (hk : 0 < k)
    (hobs : c.preObs = some os) (hinfo : c.preInfo = some infos) :
    ∃ stats c2,
      Collector.collect em pm c (some k) Option.none random explNoise false k =
        some (.ok stats, c2) ∧
      k ≤ stats.nCollectedSteps ∧
      (k % em.E = 0 → stats.nCollectedSteps = k) := by
  obtain ⟨st2, hloop, h1, h2, h3⟩ :=
    collectLoop_nstep em pm random explNoise k hE k
      ⟨List.range em.E, fun _ => 0, os, infos, c.preHid, 0, 0, [], [], []⟩
      rfl (Dvd.intro 0 rfl) hk (by omega)
  refine ⟨⟨st2.stepCount, st2.numEps, st2.epsBy, st2.buf, st2.calls⟩,
    ⟨some st2.lastObs, some st2.lastInfo, st2.lastHid, c.buffer ++ st2.buf,
      c.collectStep + st2.stepCount, c.collectEpisode + st2.numEps⟩, ?_, h1, ?_⟩
  · simp only [Collector.collect]
    rw [if_neg (by omega)]
    unfold collectMain
    simp only [Bool.false_eq_true, if_false, hobs, hinfo, hloop]
  · intro hmod
    obtain ⟨a, ha⟩ := h3
    obtain ⟨b, hb⟩ := Nat.dvd_of_mod_eq_zero hmod
    have hba : b ≤ a := by
      have h4 : em.E * b ≤ em.E * a := by omega
      exact Nat.le_of_mul_le_mul_left h4 hE
    have hab : a < b + 1 := by
      have h4 : em.E * a < em.E * (b + 1) := by
        have h5 : em.E * (b + 1) = em.E * b + em.E := by ring
        omega
      exact Nat.lt_of_mul_lt_mul_left h4
    have hae : a = b := by omega
    show st2.stepCount = k
    rw [ha, hb, hae]

/-- C3 witness: 2 envs, `n_step = 4`: exactly 4 steps. -/
theorem collect_nstep_count_witness :
    ∃ stats c2,
      Collector.collect emAll pmId cReady (some 4) Option.none false false false 4 =
        some (.ok stats, c2) ∧
      4 ≤ stats.nCollectedSteps ∧
      (4 % emAll.E = 0 → stats.nCollectedSteps = 4) :=
  collect_nstep_count emAll pmId cReady 4 false false [0, 10] [0, 0] (by decide) (by decide)
    rfl rfl

/-! ### Claim C2: exploration noise before remapping -/

theorem forall2_map_range (m : Nat) (f : Nat → β) (g : Nat → γ) (P : β → γ → Prop)
    (h : ∀ j, j < m → P (f j) (g j)) :
    List.Forall₂ P ((List.range m).map f) ((List.range m).map g) := by
  induction m with
  | zero => exact List.Forall₂.nil
  | succ m ih =>
    rw [List.range_succ]
    simp only [List.map_append, List.map_cons, List.map_nil]
    exact List.rel_append (ih (fun j hj => h j (by omega)))
      (List.Forall₂.cons (h m (by omega)) List.Forall₂.nil)

theorem collectLoop_forall2 (em : EnvModel) (pm : PolicyModel) (random explNoise : Bool)
    (nStep nEp : Option Nat) (P : BufEntry → EnvCall → Prop)
    (hP : ∀ (st : LoopState) (j : Nat), j < st.ready.length →
      P ⟨iterEAt st j, iterOAt st j, iterActAt pm random explNoise st j,
          iterObsNextAt em pm random explNoise st j, iterDoneAt em pm random explNoise st j⟩
        ⟨iterEAt st j, iterActEnvAt pm random explNoise st j⟩) :
    ∀ (fuel : Nat) (st st2 : LoopState), List.Forall₂ P st.buf st.calls →
      collectLoop em pm random explNoise nStep nEp fuel st = some st2 →
      List.Forall₂ P st2.buf st2.calls := by
  intro fuel
  induction fuel with
  | zero =>
    intro st st2 _ h
    exact Option.noConfusion h
  | succ fuel ih =>
    intro st st2 hF h
    have hF2 : List.Forall₂ P (collectIter em pm random explNoise nEp st).buf
        (collectIter em pm random explNoise nEp st).calls := by
      rw [collectIter_buf, collectIter_calls]
      exact List.rel_append hF (forall2_map_range _ _ _ _ (fun j hj => hP st j hj))
    simp only [collectLoop] at h
    cases hbc : breakCond nStep nEp (collectIter em pm random explNoise nEp st) with
    | true =>
      rw [if_pos hbc] at h
      obtain rfl := Option.some_inj.1 h
      exact hF2
    | false =>
      rw [if_neg (by rw [hbc]; exact Bool.false_ne_true)] at h
      exact ih _ _ hF2 h

theorem collectMain_forall2 (em : EnvModel) (pm : PolicyModel) (c : CollectorState)
    (nStep nEp : Option Nat) (ready0 : List Nat) (random explNoise resetB : Bool)
    (fuel : Nat) (stats : CollectStatsM) (c2 : CollectorState)
    (P : BufEntry → EnvCall → Prop)
    (hP : ∀ (st : LoopState) (j : Nat), j < st.ready.length →
      P ⟨iterEAt st j, iterOAt st j, iterActAt pm random explNoise st j,
          iterObsNextAt em pm random explNoise st j, iterDoneAt em pm random explNoise st j⟩
        ⟨iterEAt st j, iterActEnvAt pm random explNoise st j⟩)
    (h : collectMain em pm c nStep nEp ready0 random explNoise resetB fuel =
      some (.ok stats, c2)) :
    List.Forall₂ P stats.newTransitions stats.envCalls := by
  unfold collectMain at h
  cases hO : (if resetB then resetForCollect em c else c).preObs with
  | none =>
    cases hI : (if resetB then resetForCollect em c else c).preInfo <;>
      simp only [hO, hI] at h <;>
      exact Except.noConfusion (congrArg Prod.fst (Option.some_inj.1 h))
  | some os =>
    cases hI : (if resetB then resetForCollect em c else c).preInfo with
    | none =>
      simp only [hO, hI] at h
      exact Except.noConfusion (congrArg Prod.fst (Option.some_inj.1 h))
    | some infos =>
      simp only [hO, hI] at h
      cases hloop : collectLoop em pm random explNoise nStep nEp fuel
          ⟨ready0, fun _ => 0, os, infos,
            (if resetB then resetForCollect em c else c).preHid, 0, 0, [], [], []⟩ with
      | none =>
        simp only [hloop] at h
        exact Option.noConfusion h
      | some st2 =>
        simp only [hloop, Option.some_inj, Prod.mk.injEq, Except.ok.injEq] at h
        obtain ⟨rfl, -⟩ := h
        exact collectLoop_forall2 em pm random explNoise nStep nEp P hP fuel _ st2
          List.Forall₂.nil hloop

theorem collect_ok_forall2 (em : EnvModel) (pm : PolicyModel) (c : CollectorState)
    (nStep nEp : Option Nat) (random explNoise resetB : Bool) (fuel : Nat)
    (stats : CollectStatsM) (c2 : CollectorState)
    (P : BufEntry → EnvCall → Prop)
    (hP : ∀ (st : LoopState) (j : Nat), j < st.ready.length →
      P ⟨iterEAt st j, iterOAt st j, iterActAt pm random explNoise st j,
          iterObsNextAt em pm random explNoise st j, iterDoneAt em pm random explNoise st j⟩
        ⟨iterEAt st j, iterActEnvAt pm random explNoise st j⟩)
    (h : Collector.collect em pm c nStep nEp random explNoise resetB fuel =
      some (.ok stats, c2)) :
    List.Forall₂ P stats.newTransitions stats.envCalls := by
  cases nStep with
  | some k =>
    cases nEp with
    | some n =>
      simp only [Collector.collect] at h
      exact Except.noConfusion (congrArg Prod.fst (Option.some_inj.1 h))
    | none =>
      simp only [Collector.collect] at h
      by_cases hk : k = 0
      · rw [if_pos hk] at h
        simp at h
      · rw [if_neg hk] at h
        exact collectMain_forall2 em pm c (some k) Option.none _ random explNoise resetB
          fuel stats c2 P hP h
  | none =>
    cases nEp with
    | some n =>
      simp only [Collector.collect] at h
      by_cases hn : n = 0
      · rw [if_pos hn] at h
        simp at h
      · rw [if_neg hn] at h
        by_cases hEn : em.E > n
        · rw [if_pos hEn] at h
          simp at h
        · rw [if_neg hEn] at h
          exact collectMain_forall2 em pm c Option.none (some n) _ random explNoise resetB
            fuel stats c2 P hP h
    | none =>
      simp only [Collector.collect] at h
      exact Except.noConfusion (congrArg Prod.fst (Option.some_inj.1 h))

/-- C2: in every iteration of `collect`, with exploration noise
enabled and `random=False`, the noise is applied to the policy's raw
action first and `map_action` is applied to the noised action; the
transition stored in the buffer carries the pre-remap noised action
while the env-step call for the same slot receives its `map_action`
image.  With `random=True` the sampled action is what the env
receives, and its `map_action_inverse` image is what the buffer
stores. -/
theorem collect_noise_order (em : EnvModel) (pm : PolicyModel) (c : CollectorState)
    (nStep nEp : Option Nat) (explNoise resetB : Bool) (fuel : Nat) :
    (∀ (stats : CollectStatsM) (c2 : CollectorState),
      Collector.collect em pm c nStep nEp false true resetB fuel = some (.ok stats, c2) →
      List.Forall₂
        (fun (b : BufEntry) (cl : EnvCall) =>
          cl.env = b.env ∧ b.act = pm.noiseF (pm.polF b.obs) ∧ cl.act = pm.mapA b.act)
        stats.newTransitions stats.envCalls) ∧
    (∀ (stats : CollectStatsM) (c2 : CollectorState),
      Collector.collect em pm c nStep nEp true explNoise resetB fuel = some (.ok stats, c2) →
      List.Forall₂
        (fun (b : BufEntry) (cl : EnvCall) =>
          cl.env = b.env ∧ b.act = pm.mapAInv cl.act)
        stats.newTransitions stats.envCalls) := by
  constructor
  · intro stats c2 h
    apply collect_ok_forall2 em pm c nStep nEp false true resetB fuel stats c2 _ _ h
    intro st j hj
    exact ⟨rfl, rfl, rfl⟩
  · intro stats c2 h
    apply collect_ok_forall2 em pm c nStep nEp true explNoise resetB fuel stats c2 _ _ h
    intro st j hj
    exact ⟨rfl, rfl⟩

/-- C2 witness: a concrete 2-env n_step collection with exploration
noise on. -/
theorem collect_noise_order_witness :
    ∃ stats c2,
      Collector.collect emAll pmId cReady (some 2) Option.none false true false 2 =
        some (.ok stats, c2) ∧
      List.Forall₂
        (fun (b : BufEntry) (cl : EnvCall) =>
          cl.env = b.env ∧ b.act = pmId.noiseF (pmId.polF b.obs) ∧ cl.act = pmId.mapA b.act)
        stats.newTransitions stats.envCalls := by
  refine ⟨_, _, rfl, ?_⟩
  exact (collect_noise_order emAll pmId cReady (some 2) Option.none true false 2).1 _ _ rfl

/-! ### Claim C1: n_episode mode collects exactly n episodes -/

theorem map_getD_range (d : α) (xs : List α) :
    (List.range xs.length).map (fun j => xs.getD j d) = xs := by
  induction xs with
  | nil => rfl
  | cons x xs ih =>
    rw [List.length_cons, List.range_succ_eq_map, List.map_cons, List.map_map]
    simp only [Function.comp_def, Nat.succ_eq_add_one, List.getD_cons_succ, List.getD_cons_zero]
    rw [ih]

theorem maskFilter_map_range (d : α) (xs : List α) : ∀ (p : Nat → Bool),
    maskFilter ((List.range xs.length).map p) xs =
      ((List.range xs.length).filter p).map (fun j => xs.getD j d) := by
  induction xs with
  | nil => intro p; rfl
  | cons x xs ih =>
    intro p
    rw [List.length_cons, List.range_succ_eq_map, List.map_cons, List.map_map]
    cases h0 : p 0 with
    | true =>
      simp only [h0, maskFilter]
      rw [ih (p ∘ Nat.succ), List.filter_cons_of_pos h0, List.filter_map,
        List.map_cons, List.map_map]
      simp only [Function.comp_def, Nat.succ_eq_add_one, List.getD_cons_succ,
        List.getD_cons_zero]
    | false =>
      simp only [h0, maskFilter]
      rw [ih (p ∘ Nat.succ), List.filter_cons_of_neg (by simp [h0]), List.filter_map,
        List.map_map]
      simp only [Function.comp_def, Nat.succ_eq_add_one, List.getD_cons_succ]

theorem filter_not_mem_length {S L : List Nat} (hS : List.Sublist S L) (hL : L.Nodup) :
    (L.filter (fun x => decide (x ∉ S))).length = L.length - S.length := by
  induction hS with
  | slnil => rfl
  | @cons S L' a h ih =>
    have hna : a ∉ L' := (List.nodup_cons.mp hL).1
    have hnd' : L'.Nodup := (List.nodup_cons.mp hL).2
    have haS : a ∉ S := fun hmem => hna (h.subset hmem)
    have hlen : S.length ≤ L'.length := h.length_le
    simp only [List.filter_cons, decide_eq_true haS, reduceIte, List.length_cons]
    rw [ih hnd']
    omega
  | @cons₂ S L' a h ih =>
    have hna : a ∉ L' := (List.nodup_cons.mp hL).1
    have hnd' : L'.Nodup := (List.nodup_cons.mp hL).2
    have hhd : ¬ (decide (a ∉ a :: S) = true) := by
      simp only [decide_eq_true_eq, Decidable.not_not]
      exact List.mem_cons_self a S
    rw [List.filter_cons, if_neg hhd]
    have hcongr : List.filter (fun x => decide (x ∉ a :: S)) L' =
        List.filter (fun x => decide (x ∉ S)) L' := by
      refine List.filter_congr ?_
      intro x hx
      refine decide_eq_decide.mpr ?_
      have hxa : x ≠ a := fun he => hna (he ▸ hx)
      simp only [List.mem_cons, hxa, false_or]
    rw [hcongr, ih hnd']
    simp only [List.length_cons]
    omega

theorem collectIter_some_ready (em : EnvModel) (pm : PolicyModel) (r e : Bool) (n : Nat)
    (st : LoopState) :
    (collectIter em pm r e (some n) st).ready =
      if (iterDonePos em pm r e st).length > 0 then
        if iterSurplus em pm r e n st > 0 then
          maskFilter ((List.range st.ready.length).map
            (fun j => decide (j ∉ (iterDonePos em pm r e st).take
              (iterSurplus em pm r e n st).toNat))) st.ready
        else st.ready
      else st.ready := by
  unfold collectIter iterSurplus iterDonePos
  cases r <;> simp only [reduceIte] <;> (split <;> (try split) <;> rfl)

theorem collectIter_ep (em : EnvModel) (pm : PolicyModel) (r e : Bool) (n : Nat)
    (st : LoopState) (hinv : st.numEps + st.ready.length ≤ n) :
    (collectIter em pm r e (some n) st).numEps +
        (collectIter em pm r e (some n) st).ready.length ≤ n ∧
    (∀ x, x ∈ st.ready →
      x ∈ (collectIter em pm r e (some n) st).ready ∨
        x ∈ (collectIter em pm r e (some n) st).epsBy) ∧
    (∀ x, x ∈ st.epsBy → x ∈ (collectIter em pm r e (some n) st).epsBy) ∧
    (n ≤ (collectIter em pm r e (some n) st).numEps →
      (collectIter em pm r e (some n) st).numEps = n ∧
        (collectIter em pm r e (some n) st).ready = []) := by
  have hDP : iterDonePos em pm r e st =
      (List.range st.ready.length).filter (iterDoneAt em pm r e st) := rfl
  have hnum := collectIter_numEps em pm r e (some n) st
  have heps := collectIter_epsBy em pm r e (some n) st
  have hready := collectIter_some_ready em pm r e n st
  rw [← hDP] at hnum heps
  have hDle : (iterDonePos em pm r e st).length ≤ st.ready.length := by
    calc (iterDonePos em pm r e st).length
        ≤ (List.range st.ready.length).length := by rw [hDP]; exact List.length_filter_le _ _
      _ = st.ready.length := List.length_range _
  have hsurp : iterSurplus em pm r e n st =
      (st.ready.length : Int) -
        ((n : Int) - ((st.numEps + (iterDonePos em pm r e st).length : Nat) : Int)) := rfl
  have hP3 : ∀ x, x ∈ st.epsBy → x ∈ (collectIter em pm r e (some n) st).epsBy := by
    intro x hx
    rw [heps]
    exact List.mem_append_left _ hx
  have hDPsub : List.Sublist (iterDonePos em pm r e st) (List.range st.ready.length) := by
    rw [hDP]
    exact List.filter_sublist _
  by_cases hD : (iterDonePos em pm r e st).length > 0
  · by_cases hs : iterSurplus em pm r e n st > 0
    · rw [if_pos hD, if_pos hs] at hready
      have hready2 : (collectIter em pm r e (some n) st).ready =
          ((List.range st.ready.length).filter
            (fun j => decide (j ∉ (iterDonePos em pm r e st).take
              (iterSurplus em pm r e n st).toNat))).map (fun j => st.ready.getD j 0) := by
        rw [hready, maskFilter_map_range]
      have hSsub : List.Sublist
          ((iterDonePos em pm r e st).take (iterSurplus em pm r e n st).toNat)
          (List.range st.ready.length) :=
        (List.take_sublist _ _).trans hDPsub
      have hsD : (iterSurplus em pm r e n st).toNat ≤ (iterDonePos em pm r e st).length := by
        omega
      have hSlen : ((iterDonePos em pm r e st).take (iterSurplus em pm r e n st).toNat).length =
          (iterSurplus em pm r e n st).toNat := by
        rw [List.length_take]
        omega
      have hlen2 : (collectIter em pm r e (some n) st).ready.length =
          st.ready.length - (iterSurplus em pm r e n st).toNat := by
        rw [hready2, List.length_map, filter_not_mem_length hSsub (List.nodup_range _),
          List.length_range, hSlen]
      refine ⟨?_, ?_, hP3, ?_⟩
      · rw [hnum, hlen2]
        omega
      · intro x hx
        have hx' : x ∈ (List.range st.ready.length).map (fun j => st.ready.getD j 0) := by
          rw [map_getD_range]
          exact hx
        obtain ⟨j, hj, hxeq⟩ := List.mem_map.mp hx'
        by_cases hjS : j ∈ (iterDonePos em pm r e st).take (iterSurplus em pm r e n st).toNat
        · right
          rw [heps]
          refine List.mem_append_right _ (List.mem_map.mpr ⟨j, ?_, hxeq⟩)
          exact List.take_subset _ _ hjS
        · left
          rw [hready2]
          exact List.mem_map.mpr ⟨j, List.mem_filter.mpr ⟨hj, decide_eq_true hjS⟩, hxeq⟩
      · intro hbreak
        rw [hnum] at hbreak
        refine ⟨by rw [hnum]; omega, ?_⟩
        have hDR : (iterDonePos em pm r e st).length = st.ready.length := by omega
        have hDPall : iterDonePos em pm r e st = List.range st.ready.length := by
          refine hDPsub.eq_of_length ?_
          rw [hDR, List.length_range]
        have hsR : (iterSurplus em pm r e n st).toNat = st.ready.length := by omega
        have hSall : (iterDonePos em pm r e st).take (iterSurplus em pm r e n st).toNat =
            List.range st.ready.length := by
          rw [hsR, hDPall]
          exact List.take_of_length_le (le_of_eq (List.length_range _))
        rw [hready2, hSall]
        rw [List.filter_eq_nil_iff.mpr (fun a ha => by simp [ha]), List.map_nil]
    · rw [if_pos hD, if_neg hs] at hready
      refine ⟨?_, ?_, hP3, ?_⟩
      · rw [hnum, hready]
        omega
      · intro x hx
        left
        rw [hready]
        exact hx
      · intro hbreak
        rw [hnum] at hbreak
        omega
  · rw [if_neg hD] at hready
    refine ⟨?_, ?_, hP3, ?_⟩
    · rw [hnum, hready]
      omega
    · intro x hx
      left
      rw [hready]
      exact hx
    · intro hbreak
      rw [hnum] at hbreak
      refine ⟨by rw [hnum]; omega, ?_⟩
      rw [hready]
      refine List.length_eq_zero.mp ?_
      omega

theorem collectLoop_ep (em : EnvModel) (pm : PolicyModel) (r e : Bool) (n : Nat) :
    ∀ (fuel : Nat) (st st2 : LoopState),
      st.numEps + st.ready.length ≤ n →
      collectLoop em pm r e Option.none (some n) fuel st = some st2 →
      st2.numEps = n ∧ ∀ x, x ∈ st.ready ∨ x ∈ st.epsBy → x ∈ st2.epsBy := by
  intro fuel
  induction fuel with
  | zero =>
    intro st st2 _ h
    exact Option.noConfusion h
  | succ fuel ih =>
    intro st st2 hinv h
    obtain ⟨h1, h2, h3, h4⟩ := collectIter_ep em pm r e n st hinv
    simp only [collectLoop] at h
    cases hbc : breakCond Option.none (some n) (collectIter em pm r e (some n) st) with
    | true =>
      rw [if_pos hbc] at h
      obtain rfl := Option.some_inj.mp h
      have hn : n ≤ (collectIter em pm r e (some n) st).numEps := by
        simp only [breakCond, Bool.false_or, decide_eq_true_eq] at hbc
        exact hbc
      obtain ⟨hEq, hNil⟩ := h4 hn
      refine ⟨hEq, ?_⟩
      intro x hx
      cases hx with
      | inl hxr =>
        cases h2 x hxr with
        | inl hr =>
          rw [hNil] at hr
          exact absurd hr (List.not_mem_nil x)
        | inr he => exact he
      | inr hxe => exact h3 x hxe
    | false =>
      rw [if_neg (by rw [hbc]; exact Bool.false_ne_true)] at h
      obtain ⟨hEq, hcov⟩ := ih _ st2 h1 h
      refine ⟨hEq, ?_⟩
      intro x hx
      refine hcov x ?_
      cases hx with
      | inl hxr => exact h2 x hxr
      | inr hxe => exact Or.inr (h3 x hxe)

/-- C1: a successful `collect(n_episode=n)` call with `n ≥ E` counts
exactly `n` completed episodes in the returned stats, and every
environment id that ever appears in the ready set (they all start
ready) contributes at least one completed episode to the collected
data: the surplus-drop step only removes just-finished envs, and at
the loop exit every still-ready env has just finished. -/
theorem collect_nEpisode_exact (em : EnvModel) (pm : PolicyModel) (c : CollectorState)
    (n : Nat) (random explNoise resetB : Bool) (fuel : Nat) (stats : CollectStatsM)
    (c2 : CollectorState) (hEn : em.E ≤ n)
    (h : Collector.collect em pm c Option.none (some n) random explNoise resetB fuel =
      some (.ok stats, c2)) :
    stats.nCollectedEpisodes = n ∧ ∀ x, x < em.E → x ∈ stats.episodeEnvs := by
  simp only [Collector.collect] at h
  by_cases hn : n = 0
  · rw [if_pos hn] at h
    exact Except.noConfusion (congrArg Prod.fst (Option.some_inj.mp h))
  · rw [if_neg hn] at h
    rw [if_neg (by omega : ¬ em.E > n)] at h
    unfold collectMain at h
    cases hO : (if resetB then resetForCollect em c else c).preObs with
    | none =>
      cases hI : (if resetB then resetForCollect em c else c).preInfo <;>
        simp only [hO, hI] at h <;>
        exact Except.noConfusion (congrArg Prod.fst (Option.some_inj.mp h))
    | some os =>
      cases hI : (if resetB then resetForCollect em c else c).preInfo with
      | none =>
        simp only [hO, hI] at h
        exact Except.noConfusion (congrArg Prod.fst (Option.some_inj.mp h))
      | some infos =>
        simp only [hO, hI] at h
        cases hloop : collectLoop em pm random explNoise Option.none (some n) fuel
            ⟨List.range (min em.E n), fun _ => 0, os, infos,
              (if resetB then resetForCollect em c else c).preHid, 0, 0, [], [], []⟩ with
        | none =>
          simp only [hloop] at h
          exact Option.noConfusion h
        | some st2 =>
          simp only [hloop, Option.some_inj, Prod.mk.injEq, Except.ok.injEq] at h
          obtain ⟨rfl, -⟩ := h
          have hres := collectLoop_ep em pm random explNoise n fuel _ st2
            (by simp only [List.length_range]; omega) hloop
          refine ⟨hres.1, ?_⟩
          intro x hx
          refine hres.2 x (Or.inl ?_)
          simp only [List.mem_range]
          omega

/-- C1 witness: two always-terminating envs, three requested
episodes; the collection succeeds with exactly three episodes and both
envs contribute. -/
theorem collect_nEpisode_exact_witness :
    emAll.E ≤ 3 ∧
    ∃ stats c2,
      Collector.collect emAll pmId cReady Option.none (some 3) false false false 5 =
        some (.ok stats, c2) ∧
      stats.nCollectedEpisodes = 3 ∧ ∀ x, x < emAll.E → x ∈ stats.episodeEnvs := by
  refine ⟨by decide, _, _, rfl, ?_⟩
  exact collect_nEpisode_exact emAll pmId cReady 3 false false false 5 _ _ (by decide) rfl

/-! ### Claim C9: post-collect persistence (n_step) vs reset (n_episode) -/

theorem collectLoop_last_iter (em : EnvModel) (pm : PolicyModel) (r e : Bool)
    (nStep nEp : Option Nat) :
    ∀ (fuel : Nat) (st st2 : LoopState),
      collectLoop em pm r e nStep nEp fuel st = some st2 →
      ∃ stPrev, st2 = collectIter em pm r e nEp stPrev := by
  intro fuel
  induction fuel with
  | zero =>
    intro st st2 h
    exact Option.noConfusion h
  | succ fuel ih =>
    intro st st2 h
    simp only [collectLoop] at h
    cases hbc : breakCond nStep nEp (collectIter em pm r e nEp st) with
    | true =>
      rw [if_pos hbc] at h
      exact ⟨st, (Option.some_inj.mp h).symm⟩
    | false =>
      rw [if_neg (by rw [hbc]; exact Bool.false_ne_true)] at h
      exact ih _ st2 h

/-- C9: after a successful `collect` call, in `n_step` mode the
collector's pre-collect observation, info and hidden state are exactly
the `last_obs`/`last_info`/`last_hidden_state` of the loop's final
state (itself the output of the final iteration), persisted for the
next call; in `n_episode` mode the epilogue calls `reset_env`, so the
stored observation and info are the fresh per-env reset values and the
hidden state is cleared. -/
theorem collect_epilogue_persist (em : EnvModel) (pm : PolicyModel) (c : CollectorState)
    (random explNoise resetB : Bool) (fuel : Nat) :
    (∀ (k : Nat) (stats : CollectStatsM) (c2 : CollectorState),
      Collector.collect em pm c (some k) Option.none random explNoise resetB fuel =
        some (.ok stats, c2) →
      ∃ os infos stL,
        (if resetB then resetForCollect em c else c).preObs = some os ∧
        (if resetB then resetForCollect em c else c).preInfo = some infos ∧
        collectLoop em pm random explNoise (some k) Option.none fuel
          ⟨List.range em.E, fun _ => 0, os, infos,
            (if resetB then resetForCollect em c else c).preHid, 0, 0, [], [], []⟩ =
          some stL ∧
        (∃ stPrev, stL = collectIter em pm random explNoise Option.none stPrev) ∧
        c2.preObs = some stL.lastObs ∧ c2.preInfo = some stL.lastInfo ∧
        c2.preHid = stL.lastHid) ∧
    (∀ (n : Nat) (stats : CollectStatsM) (c2 : CollectorState),
      Collector.collect em pm c Option.none (some n) random explNoise resetB fuel =
        some (.ok stats, c2) →
      c2.preObs = some ((List.range em.E).map em.resetObs) ∧
      c2.preInfo = some ((List.range em.E).map em.resetInfo) ∧
      c2.preHid = Option.none) := by
  constructor
  · intro k stats c2 h
    simp only [Collector.collect] at h
    by_cases hk : k = 0
    · rw [if_pos hk] at h
      exact Except.noConfusion (congrArg Prod.fst (Option.some_inj.mp h))
    · rw [if_neg hk] at h
      unfold collectMain at h
      cases hO : (if resetB then resetForCollect em c else c).preObs with
      | none =>
        cases hI : (if resetB then resetForCollect em c else c).preInfo <;>
          simp only [hO, hI] at h <;>
          exact Except.noConfusion (congrArg Prod.fst (Option.some_inj.mp h))
      | some os =>
        cases hI : (if resetB then resetForCollect em c else c).preInfo with
        | none =>
          simp only [hO, hI] at h
          exact Except.noConfusion (congrArg Prod.fst (Option.some_inj.mp h))
        | some infos =>
          simp only [hO, hI] at h
          cases hloop : collectLoop em pm random explNoise (some k) Option.none fuel
              ⟨List.range em.E, fun _ => 0, os, infos,
                (if resetB then resetForCollect em c else c).preHid, 0, 0, [], [], []⟩ with
          | none =>
            simp only [hloop] at h
            exact Option.noConfusion h
          | some stL =>
            simp only [hloop, Option.some_inj, Prod.mk.injEq, Except.ok.injEq] at h
            obtain ⟨-, rfl⟩ := h
            exact ⟨os, infos, stL, rfl, rfl, hloop,
              collectLoop_last_iter em pm random explNoise (some k) Option.none fuel _ stL
                hloop, rfl, rfl, rfl⟩
  · intro n stats c2 h
    simp only [Collector.collect] at h
    by_cases hn : n = 0
    · rw [if_pos hn] at h
      exact Except.noConfusion (congrArg Prod.fst (Option.some_inj.mp h))
    · rw [if_neg hn] at h
      by_cases hEn : em.E > n
      · rw [if_pos hEn] at h
        exact Except.noConfusion (congrArg Prod.fst (Option.some_inj.mp h))
      · rw [if_neg hEn] at h
        unfold collectMain at h
        cases hO : (if resetB then resetForCollect em c else c).preObs with
        | none =>
          cases hI : (if resetB then resetForCollect em c else c).preInfo <;>
            simp only [hO, hI] at h <;>
            exact Except.noConfusion (congrArg Prod.fst (Option.some_inj.mp h))
        | some os =>
          cases hI : (if resetB then resetForCollect em c else c).preInfo with
          | none =>
            simp only [hO, hI] at h
            exact Except.noConfusion (congrArg Prod.fst (Option.some_inj.mp h))
          | some infos =>
            simp only [hO, hI] at h
            cases hloop : collectLoop em pm random explNoise Option.none (some n) fuel
                ⟨List.range (min em.E n), fun _ => 0, os, infos,
                  (if resetB then resetForCollect em c else c).preHid, 0, 0, [], [], []⟩ with
            | none =>
              simp only [hloop] at h
              exact Option.noConfusion h
            | some stL =>
              simp only [hloop, Option.some_inj, Prod.mk.injEq, Except.ok.injEq] at h
              obtain ⟨-, rfl⟩ := h
              exact ⟨rfl, rfl, rfl⟩

/-- C9 witness: concrete `n_step` and `n_episode` collections showing
persistence resp. reset of the pre-collect fields. -/
theorem collect_epilogue_persist_witness :
    ∃ stats c2 stats2 c3,
      Collector.collect emAll pmId cReady (some 2) Option.none false false false 2 =
        some (.ok stats, c2) ∧
      Collector.collect emAll pmId cReady Option.none (some 3) false false false 5 =
        some (.ok stats2, c3) ∧
      (∃ os infos stL,
        (if false then resetForCollect emAll cReady else cReady).preObs = some os ∧
        (if false then resetForCollect emAll cReady else cReady).preInfo = some infos ∧
        collectLoop emAll pmId false false (some 2) Option.none 2
          ⟨List.range emAll.E, fun _ => 0, os, infos,
            (if false then resetForCollect emAll cReady else cReady).preHid,
            0, 0, [], [], []⟩ = some stL ∧
        (∃ stPrev, stL = collectIter emAll pmId false false Option.none stPrev) ∧
        c2.preObs = some stL.lastObs ∧ c2.preInfo = some stL.lastInfo ∧
        c2.preHid = stL.lastHid) ∧
      (c3.preObs = some ((List.range emAll.E).map emAll.resetObs) ∧
        c3.preInfo = some ((List.range emAll.E).map emAll.resetInfo) ∧
        c3.preHid = Option.none) := by
  refine ⟨_, _, _, _, rfl, rfl, ?_, ?_⟩
  · exact (collect_epilogue_persist emAll pmId cReady false false false 2).1 2 _ _ rfl
  · exact (collect_epilogue_persist emAll pmId cReady false false false 5).2 3 _ _ rfl
